import Mathlib

/-!  Shallow embedding of the BoxdWrapped worker core (`src/api/src/index.ts`):
the diary HTML parser, the pagination loop with its stop-reason policy, and
the statistics / longest-streak aggregation.  External platform capabilities
(the cheerio tree queries, `fetch`, `Date.parse`, `Array.prototype.sort`) are
modelled as explicit data and functions, as the specification directs. -/

/-- A diary entry that survived accumulation (`date` and `filmUrl` present). -/
structure DiaryEntry where
  date : String
  title : Option String
  filmUrl : String
deriving DecidableEq

/-- Result record of `computeLongestStreak`.  The JS field `end` is a Lean
keyword, hence `endD`. -/
structure StreakResult where
  length : Nat
  start : Option String
  endD : Option String
deriving DecidableEq

/-! ### The calendar arithmetic behind `Date.parse`

`computeLongestStreak` feeds `"YYYY-MM-DD"` strings to
`Date.parse(d + "T00:00:00Z")` and compares differences of the resulting UTC
timestamps.  We model the timestamp in whole days (the code divides the
millisecond difference by 86400000 before comparing with 1) and shifted by a
positive constant so the value is a `Nat` even for year 0; both changes are
invisible to the code, which only ever compares differences.  The formula is
the standard civil-from-days / days-from-civil computation for the proleptic
Gregorian calendar that `Date.parse` implements. -/

/-- Gregorian leap-year test (as used by the platform's `Date`). -/
def isLeapYear (y : Nat) : Bool := (y % 4 == 0 && y % 100 != 0) || y % 400 == 0

/-- Length of month `m` (1–12) of year `y`; `Date.parse` rejects day numbers
beyond this bound. -/
def daysInMonth (y m : Nat) : Nat :=
  if m = 2 then (if isLeapYear y then 29 else 28)
  else if m = 4 ∨ m = 6 ∨ m = 9 ∨ m = 11 then 30 else 31

/-- Month index counted from March (`Mar = 0, …, Jan = 10, Feb = 11`). -/
def marchIdx (m : Nat) : Nat := (m + 9) % 12

/-- Days before the month with March-index `i` inside a March-based year. -/
def doyBase (i : Nat) : Nat := (153 * i + 2) / 5

/-- Days before March 1 of the March-based year `yy` (counted from the start
of era 0 of the 400-year Gregorian cycle). -/
def yearDays (yy : Nat) : Nat :=
  (yy / 400) * 146097 + ((yy % 400) * 365 + (yy % 400) / 4 - (yy % 400) / 100)

/-- March-based year of calendar date `(y, m)`, offset by 400 years so that it
is a `Nat` even for `y = 0, m ≤ 2`. -/
def shiftedYear (y m : Nat) : Nat := if m ≤ 2 then y + 399 else y + 400

/-- Day number of the proleptic-Gregorian date `(y, m, d)` — the value
`Date.parse` yields, expressed in days and translated by a constant. -/
def dayNumber (y m d : Nat) : Nat :=
  yearDays (shiftedYear y m) + (doyBase (marchIdx m) + d - 1)

/-- ASCII digit test. -/
def isDigitChar (c : Char) : Bool := 48 ≤ c.toNat && c.toNat ≤ 57

/-- Numeric value of an ASCII digit. -/
def digitVal (c : Char) : Nat := c.toNat - 48

/-- Parse a valid ISO `YYYY-MM-DD` string into `(year, month, day)`,
validating the ranges exactly as `Date.parse` does (month 01–12, day 01 up to
the month's length). -/
def parseISO (s : String) : Option (Nat × Nat × Nat) :=
  match s.data with
  | [y1, y2, y3, y4, h1, m1, m2, h2, d1, d2] =>
    if h1 = '-' ∧ h2 = '-' ∧ isDigitChar y1 ∧ isDigitChar y2 ∧ isDigitChar y3 ∧
        isDigitChar y4 ∧ isDigitChar m1 ∧ isDigitChar m2 ∧ isDigitChar d1 ∧
        isDigitChar d2 then
      let y := ((digitVal y1 * 10 + digitVal y2) * 10 + digitVal y3) * 10 + digitVal y4
      let m := digitVal m1 * 10 + digitVal m2
      let d := digitVal d1 * 10 + digitVal d2
      if 1 ≤ m ∧ m ≤ 12 ∧ 1 ≤ d ∧ d ≤ daysInMonth y m then some (y, m, d) else none
    else none
  | _ => none

/-- `Date.parse(s + "T00:00:00Z")` in (shifted) days; `none` models `NaN`.
(`Date.parse` also accepts a few other formats, e.g. `"YYYY-MM"`; the
specification's claims only concern valid `YYYY-MM-DD` strings, on which this
model is exact, and on other inputs the streak code only distinguishes
parsable from `NaN` dates.) -/
def dateVal (s : String) : Option Nat :=
  (parseISO s).map (fun t => dayNumber t.1 t.2.1 t.2.2)

/-- The loop test `(t - prevTime) / (1000*60*60*24) === 1`: true iff both
dates parse and `d` is exactly one calendar day after `p` (a `NaN` on either
side makes the JS comparison false). -/
def isNextDay (p d : String) : Bool :=
  match dateVal p, dateVal d with
  | some a, some b => b == a + 1
  | _, _ => false

/-! ### The deduplicating sort `Array.from(new Set(dates)).sort()` -/

/-- `Array.from(new Set(xs))`: the distinct values in first-occurrence
order. -/
def firstDedup : List String → List String
  | [] => []
  | a :: l => a :: (firstDedup l).filter (fun x => x != a)

/-- Lexicographic comparison of two character lists by Unicode scalar value —
the comparison `Array.prototype.sort`'s default comparator performs (the date
strings involved are ASCII, where UTF-16 unit order and scalar order agree). -/
def charsLe : List Char → List Char → Bool
  | [], _ => true
  | _ :: _, [] => false
  | a :: as, b :: bs => if a < b then true else if b < a then false else charsLe as bs

/-- String comparison used by the `.sort()` call. -/
def strLe (a b : String) : Bool := charsLe a.data b.data

/-- `.sort()` on the deduplicated date list.  `Array.prototype.sort` with the
default comparator returns the unique `strLe`-sorted arrangement (the input is
duplicate-free), which insertion sort produces. -/
def sortedDays (entries : List DiaryEntry) : List String :=
  List.insertionSort (fun a b => strLe a b = true)
    (firstDedup (entries.map (fun e => e.date)))

/-! ### The streak loop -/

/-- The mutable locals of `computeLongestStreak`'s loop.  `prev = none` models
`prevTime === null` (before the first iteration); afterwards `prev` holds the
previous date string, whose `dateVal` is the JS `prevTime` (possibly `NaN`,
i.e. an unparsable string). -/
structure StreakState where
  bestLen : Nat
  bestStart : Option String
  bestEnd : Option String
  curLen : Nat
  curStart : Option String
  prev : Option String
deriving DecidableEq

def initState : StreakState := ⟨0, none, none, 0, none, none⟩

/-- One iteration of the `for (const d of days)` loop. -/
def streakStep (st : StreakState) (d : String) : StreakState :=
  let cur : Nat × Option String :=
    match st.prev with
    | none => (1, some d)
    | some p => if isNextDay p d then (st.curLen + 1, st.curStart) else (1, some d)
  let best : Nat × Option String × Option String :=
    if st.bestLen < cur.1 then (cur.1, cur.2, some d)
    else (st.bestLen, st.bestStart, st.bestEnd)
  ⟨best.1, best.2.1, best.2.2, cur.1, cur.2, some d⟩

/-- `computeLongestStreak` of `src/api/src/index.ts`. -/
def computeLongestStreak (entries : List DiaryEntry) : StreakResult :=
  let st := (sortedDays entries).foldl streakStep initState
  ⟨st.bestLen, st.bestStart, st.bestEnd⟩

/-! ### `computeStats` -/

/-- Element of `topMonths`. -/
structure MonthCount where
  month : String
  count : Nat
deriving DecidableEq

/-- Element of `topDays`. -/
structure DayCount where
  date : String
  count : Nat
deriving DecidableEq

/-- Result record of `computeStats`. -/
structure StatsResult where
  activeDays : Nat
  topMonths : List MonthCount
  topDays : List DayCount
  longestStreak : StreakResult
deriving DecidableEq

/-- `rec[k] = (rec[k] ?? 0) + 1` on a JS object viewed through
`Object.entries`: string keys (none of ours are array indices) enumerate in
insertion order, so the object is an association list that keeps each key at
its first-occurrence position. -/
def insertCount : List (String × Nat) → String → List (String × Nat)
  | [], k => [(k, 1)]
  | (k', c) :: rest, k =>
    if k' = k then (k', c + 1) :: rest else (k', c) :: insertCount rest k

/-- Build the `byMonth` / `byDay` objects: occurrence counts per key, keys in
first-occurrence order (the order `Object.entries` yields). -/
def countByKey (keys : List String) : List (String × Nat) :=
  keys.foldl insertCount []

/-- `.sort((a, b) => b[1] - a[1])`: stable sort, descending by count
(`Array.prototype.sort` is stable, as is insertion sort with this
relation). -/
def sortByCountDesc (l : List (String × Nat)) : List (String × Nat) :=
  List.insertionSort (fun a b => b.2 ≤ a.2) l

/-- `computeStats` of `src/api/src/index.ts`. -/
def computeStats (entries : List DiaryEntry) : StatsResult :=
  let byMonth := countByKey (entries.map (fun e => e.date.take 7))
  let topMonths := ((sortByCountDesc byMonth).take 5).map (fun p => MonthCount.mk p.1 p.2)
  let activeDays := (firstDedup (entries.map (fun e => e.date))).length
  let byDay := countByKey (entries.map (fun e => e.date))
  let topDays := ((sortByCountDesc byDay).take 5).map (fun p => DayCount.mk p.1 p.2)
  let longestStreak := computeLongestStreak entries
  ⟨activeDays, topMonths, topDays, longestStreak⟩

/-! ### `parseDiaryEntries`

The HTML-tree queries are an external capability (spec §9): a page is
modelled by the results of exactly the queries the parser performs — the
`tr.diary-entry-row` elements, all `tr` elements, and the document-wide
`a[href*="/film/"]` links, each carrying the attribute/text lookups the code
reads from it. -/

/-- What the parser reads from one table row. -/
structure RowView where
  dataViewingDate : Option String
  timeDatetime : Option String
  daydateHref : Option String
  filmAnchorHref : Option String
  filmAnchorText : String
deriving DecidableEq

/-- What the fallback strategy reads from one `a[href*="/film/"]` link. -/
structure FilmLinkView where
  href : Option String
  text : String
  parentDataViewingDate : Option String
  parentTimeDatetime : Option String
deriving DecidableEq

/-- One fetched page, as seen through the tree queries. -/
structure DocView where
  diaryRows : List RowView
  allRows : List RowView
  filmLinks : List FilmLinkView
deriving DecidableEq

/-- A raw parsed entry (pre-filtering). -/
structure RawEntry where
  date : Option String
  title : Option String
  filmUrl : Option String
deriving DecidableEq

/-- The whitespace characters `String.prototype.trim` removes (the ASCII
ones; the HTML involved is ASCII). -/
def isWSChar (c : Char) : Bool :=
  c.toNat = 9 || c.toNat = 10 || c.toNat = 11 || c.toNat = 12 || c.toNat = 13 || c.toNat = 32

/-- `String.prototype.trim`. -/
def jsTrim (s : String) : String :=
  ⟨((s.data.dropWhile isWSChar).reverse.dropWhile isWSChar).reverse⟩

/-- `textOrNull`: trim, then `null` for the empty string. -/
def textOrNull (v : Option String) : Option String :=
  let s := jsTrim (v.getD "")
  if s.data.isEmpty then none else some s

/-- JS truthiness on a nullable string (`null` and `""` are falsy). -/
def truthyStr (v : Option String) : Option String :=
  match v with
  | some s => if s.data.isEmpty then none else some s
  | none => none

/-- `String.prototype.startsWith` (on our ASCII inputs). -/
def strStartsWith (s p : String) : Bool := p.data.isPrefixOf s.data

/-- `href.startsWith("http") ? href : "https://letterboxd.com" + href`. -/
def absolutize (href : String) : String :=
  if strStartsWith href "http" then href else "https://letterboxd.com" ++ href

/-- Consume an exact literal. -/
def dropLit : List Char → List Char → Option (List Char)
  | [], l => some l
  | p :: ps, c :: cs => if c = p then dropLit ps cs else none
  | _ :: _, [] => none

/-- Consume exactly `n` ASCII digits. -/
def takeDigits : Nat → List Char → Option (List Char × List Char)
  | 0, l => some ([], l)
  | n + 1, c :: cs =>
    if isDigitChar c then
      match takeDigits n cs with
      | some (ds, rest) => some (c :: ds, rest)
      | none => none
    else none
  | _ + 1, [] => none

/-- Try the day-link pattern at the start of the character list. -/
def matchDaydateHere (l : List Char) : Option (String × String × String) :=
  match dropLit "/diary/films/for/".data l with
  | none => none
  | some l1 =>
    match takeDigits 4 l1 with
    | none => none
    | some (ys, l2) =>
      match l2 with
      | '/' :: l3 =>
        match takeDigits 2 l3 with
        | none => none
        | some (ms, l4) =>
          match l4 with
          | '/' :: l5 =>
            match takeDigits 2 l5 with
            | none => none
            | some (ds, l6) =>
              match l6 with
              | '/' :: _ => some (⟨ys⟩, ⟨ms⟩, ⟨ds⟩)
              | _ => none
          | _ => none
      | _ => none

/-- The regex `\/diary\/films\/for\/(\d{4})\/(\d{2})\/(\d{2})\//`: search the
string (unanchored) for `/diary/films/for/` followed by `dddd/dd/dd/` and
return the three digit groups. -/
def matchDaydate : List Char → Option (String × String × String)
  | [] => none
  | c :: rest =>
    match matchDaydateHere (c :: rest) with
    | some r => some r
    | none => matchDaydate rest

/-- JS `a || b` on nullable strings (`null` and `""` are falsy). -/
def jsOr (a b : Option String) : Option String :=
  match truthyStr a with
  | some s => some s
  | none => b

/-- The per-row primary extraction: date by preference order (row attribute,
`time[datetime]`, day-link regex), then the `h2.name a` anchor; rows without
an href yield nothing. -/
def parseRow (row : RowView) : Option RawEntry :=
  let date0 := jsOr (textOrNull row.dataViewingDate) (textOrNull row.timeDatetime)
  let date :=
    match truthyStr date0 with
    | some d => some d
    | none =>
      match textOrNull row.daydateHref with
      | some dayHref =>
        match matchDaydate dayHref.data with
        | some (ys, ms, ds) => some (ys ++ "-" ++ ms ++ "-" ++ ds)
        | none => none
      | none => none
  let href := textOrNull row.filmAnchorHref
  let title := textOrNull (some row.filmAnchorText)
  match href with
  | none => none
  | some h => some ⟨(truthyStr date).map (fun d => d.take 10), title, some (absolutize h)⟩

/-- The fallback extraction from one document-wide film link. -/
def parseFilmLink (l : FilmLinkView) : Option RawEntry :=
  match textOrNull l.href with
  | none => none
  | some h =>
    let title := textOrNull (some l.text)
    let date := jsOr (textOrNull l.parentDataViewingDate) (textOrNull l.parentTimeDatetime)
    some ⟨(truthyStr date).map (fun d => d.take 10), title, some (absolutize h)⟩

/-- The primary strategy: `tr.diary-entry-row` rows if any exist, otherwise
all `tr` rows. -/
def rowEntries (doc : DocView) : List RawEntry :=
  (if doc.diaryRows.isEmpty then doc.allRows else doc.diaryRows).filterMap parseRow

/-- `parseDiaryEntries` of `src/api/src/index.ts`: the fallback scan runs only
when the row strategy produced nothing at all. -/
def parseDiaryEntries (doc : DocView) : List RawEntry :=
  let entries := rowEntries doc
  if entries.isEmpty then doc.filmLinks.filterMap parseFilmLink else entries

/-! ### `fetchDiaryForYear`

The page fetch is I/O; following the specification we model it as a given
assignment of a response to each page number: the HTTP `status`, the `ok`
flag, and the fetched page as a `DocView` (what `parseDiaryEntries` reads
from its HTML).  The `debug` record of the result is observability-only and
not modelled. -/

/-- One page's fetch result. -/
structure PageView where
  status : Nat
  ok : Bool
  doc : DocView
deriving DecidableEq

/-- The accumulation filter of the pagination loop: keep an entry only if it
has a (truthy) date — truncated to 10 characters — and a (truthy)
`filmUrl`. -/
def accFilter (e : RawEntry) : Option DiaryEntry :=
  let date := (truthyStr e.date).map (fun d => d.take 10)
  match date, truthyStr e.filmUrl with
  | some d, some u => some ⟨d, e.title, u⟩
  | _, _ => none

/-- The `for (let page = 1; page <= MAX_PAGES; page++)` loop, with fuel
`MAX_PAGES - page + 1`; running out of fuel is the loop condition failing, so
the reason keeps its initial value `"max_pages_reached"`. -/
def fetchPagesAux (resp : Nat → PageView) :
    Nat → Nat → List DiaryEntry → Nat → List DiaryEntry × String × Nat
  | 0, _, acc, pagesFetched => (acc, "max_pages_reached", pagesFetched)
  | fuel + 1, page, acc, pagesFetched =>
    let r := resp page
    if r.status = 404 then (acc, "diary_not_found_or_private", pagesFetched + 1)
    else if r.ok = false then (acc, "diary_http_" ++ toString r.status, pagesFetched + 1)
    else
      let pageEntries := parseDiaryEntries r.doc
      if pageEntries.isEmpty then (acc, "no_entries_on_page", pagesFetched + 1)
      else
        fetchPagesAux resp fuel (page + 1)
          (acc ++ pageEntries.filterMap accFilter) (pagesFetched + 1)

def MAX_PAGES : Nat := 30

/-- `fetchDiaryForYear` (entries, `stoppedBecause`, `pagesFetched`): run the
loop from page 1, then override a still-default reason by
`"no_entries_collected"` when nothing was accumulated. -/
def fetchDiaryForYear (resp : Nat → PageView) : List DiaryEntry × String × Nat :=
  let r := fetchPagesAux resp MAX_PAGES 1 [] 0
  let stoppedBecause :=
    if r.1 = [] ∧ r.2.1 = "max_pages_reached" then "no_entries_collected" else r.2.1
  (r.1, stoppedBecause, r.2.2)

/-! ### Order properties of the sort comparators -/

theorem charsLe_total : ∀ a b : List Char, charsLe a b = true ∨ charsLe b a = true
  | [], _ => Or.inl rfl
  | _ :: _, [] => Or.inr rfl
  | a :: as, b :: bs => by
    simp only [charsLe]
    rcases lt_trichotomy a b with h | h | h
    · simp [h]
    · subst h
      simp only [lt_irrefl, if_false]
      exact charsLe_total as bs
    · simp [h, not_lt_of_gt h]

theorem charsLe_refl (a : List Char) : charsLe a a = true :=
  (charsLe_total a a).elim id id

theorem charsLe_trans :
    ∀ a b c : List Char, charsLe a b = true → charsLe b c = true → charsLe a c = true
  | [], _, _, _, _ => rfl
  | _ :: _, [], _, h, _ => by simp [charsLe] at h
  | _ :: _, _ :: _, [], _, h => by simp [charsLe] at h
  | a :: as, b :: bs, c :: cs, hab, hbc => by
    simp only [charsLe] at hab hbc ⊢
    rcases lt_trichotomy a b with h1 | h1 | h1
    · rcases lt_trichotomy b c with h2 | h2 | h2
      · simp [lt_trans h1 h2]
      · subst h2; simp [h1]
      · simp [h2, not_lt_of_gt h2] at hbc
    · subst h1
      rcases lt_trichotomy a c with h2 | h2 | h2
      · simp [h2]
      · subst h2
        simp only [lt_irrefl, if_false] at hab hbc ⊢
        exact charsLe_trans as bs cs hab hbc
      · simp [h2, not_lt_of_gt h2] at hbc
    · simp [h1, not_lt_of_gt h1] at hab

theorem charsLe_antisymm :
    ∀ a b : List Char, charsLe a b = true → charsLe b a = true → a = b
  | [], [], _, _ => rfl
  | [], _ :: _, _, h => by simp [charsLe] at h
  | _ :: _, [], h, _ => by simp [charsLe] at h
  | a :: as, b :: bs, hab, hba => by
    simp only [charsLe] at hab hba
    rcases lt_trichotomy a b with h1 | h1 | h1
    · simp [h1, not_lt_of_gt h1] at hba
    · subst h1
      simp only [lt_irrefl, if_false] at hab hba
      rw [charsLe_antisymm as bs hab hba]
    · simp [h1, not_lt_of_gt h1] at hab

/-- The sorting relation on date strings. -/
def strLeRel (a b : String) : Prop := strLe a b = true

instance : DecidableRel strLeRel := fun a b => instDecidableEqBool (strLe a b) true

instance : IsTotal String strLeRel :=
  ⟨fun a b => charsLe_total a.data b.data⟩

instance : IsTrans String strLeRel :=
  ⟨fun a b c => charsLe_trans a.data b.data c.data⟩

theorem strLe_antisymm {a b : String} (h1 : strLeRel a b) (h2 : strLeRel b a) : a = b := by
  cases a; cases b
  exact congrArg String.mk (charsLe_antisymm _ _ h1 h2)

instance : IsAntisymm String strLeRel := ⟨fun _ _ => strLe_antisymm⟩

/-- The sorting relation of `sortByCountDesc`. -/
def countDescRel (a b : String × Nat) : Prop := b.2 ≤ a.2

instance : DecidableRel countDescRel := fun a b => Nat.decLe b.2 a.2

instance : IsTotal (String × Nat) countDescRel :=
  ⟨fun a b => (Nat.le_total b.2 a.2).imp id id⟩

instance : IsTrans (String × Nat) countDescRel :=
  ⟨fun _ _ _ h1 h2 => Nat.le_trans h2 h1⟩

theorem sortedDays_eq (entries : List DiaryEntry) :
    sortedDays entries =
      List.insertionSort strLeRel (firstDedup (entries.map (fun e => e.date))) := rfl

theorem sortByCountDesc_eq (l : List (String × Nat)) :
    sortByCountDesc l = List.insertionSort countDescRel l := rfl

/-! ### C10: the streak length is bounded by the number of active days -/

theorem streakStep_bound (st : StreakState) (d : String) (B : Nat)
    (h1 : st.bestLen ≤ B) (h2 : st.curLen ≤ B) :
    (streakStep st d).bestLen ≤ B + 1 ∧ (streakStep st d).curLen ≤ B + 1 := by
  unfold streakStep
  cases st.prev <;> dsimp only <;> split_ifs <;> dsimp only <;> omega

theorem foldl_streakStep_bound :
    ∀ (ds : List String) (st : StreakState) (B : Nat),
      st.bestLen ≤ B → st.curLen ≤ B →
      (ds.foldl streakStep st).bestLen ≤ B + ds.length
  | [], _, _, h1, _ => by simpa using h1
  | d :: ds, st, B, h1, h2 => by
    have h3 := streakStep_bound st d B h1 h2
    have h4 := foldl_streakStep_bound ds (streakStep st d) (B + 1) h3.1 h3.2
    simpa [Nat.add_comm, Nat.add_assoc, Nat.add_left_comm] using h4

/-- Claim C10: for every entry list, the longest-streak length reported by
`computeStats` never exceeds `activeDays`, the number of distinct date
strings of the input. -/
theorem c10_streak_le_activeDays (entries : List DiaryEntry) :
    (computeStats entries).longestStreak.length ≤ (computeStats entries).activeDays := by
  show (computeLongestStreak entries).length ≤ (firstDedup (entries.map (fun e => e.date))).length
  have h := foldl_streakStep_bound (sortedDays entries) initState 0 (Nat.le_refl 0) (Nat.le_refl 0)
  have hlen : (sortedDays entries).length =
      (firstDedup (entries.map (fun e => e.date))).length :=
    (List.perm_insertionSort _ _).length_eq
  simpa [computeLongestStreak, hlen] using h

/-! ### C4: the streak depends only on the set of distinct dates -/

theorem mem_firstDedup : ∀ (l : List String) (x : String), x ∈ firstDedup l ↔ x ∈ l
  | [], _ => Iff.rfl
  | a :: l, x => by
    simp only [firstDedup, List.mem_cons, List.mem_filter, bne_iff_ne, ne_eq]
    constructor
    · rintro (rfl | ⟨hx, _⟩)
      · exact Or.inl rfl
      · exact Or.inr ((mem_firstDedup l x).1 hx)
    · rintro (rfl | hx)
      · exact Or.inl rfl
      · by_cases hxa : x = a
        · exact Or.inl hxa
        · exact Or.inr ⟨(mem_firstDedup l x).2 hx, hxa⟩

theorem nodup_firstDedup : ∀ l : List String, (firstDedup l).Nodup
  | [] => List.nodup_nil
  | a :: l => by
    simp only [firstDedup, List.nodup_cons]
    refine ⟨fun hmem => ?_, (nodup_firstDedup l).filter _⟩
    have h := (List.mem_filter.1 hmem).2
    simp at h

theorem sortedDays_ext {l₁ l₂ : List String} (h : ∀ x, x ∈ l₁ ↔ x ∈ l₂) :
    List.insertionSort strLeRel (firstDedup l₁) = List.insertionSort strLeRel (firstDedup l₂) := by
  have hperm : List.Perm (firstDedup l₁) (firstDedup l₂) :=
    (List.perm_ext_iff_of_nodup (nodup_firstDedup l₁) (nodup_firstDedup l₂)).2
      (fun x => (mem_firstDedup l₁ x).trans ((h x).trans (mem_firstDedup l₂ x).symm))
  exact List.eq_of_perm_of_sorted
    ((List.perm_insertionSort _ _).trans (hperm.trans (List.perm_insertionSort _ _).symm))
    (List.sorted_insertionSort _ _) (List.sorted_insertionSort _ _)

/-- Claim C4: `computeLongestStreak` depends only on the set of distinct dates
of its input — any two entry lists whose date multisets have the same
underlying set (in particular, one obtained from the other by duplicating or
reordering duplicate-date entries) give the same result. -/
theorem c4_streak_depends_only_on_date_set (e₁ e₂ : List DiaryEntry)
    (h : ∀ x, x ∈ e₁.map (fun e => e.date) ↔ x ∈ e₂.map (fun e => e.date)) :
    computeLongestStreak e₁ = computeLongestStreak e₂ := by
  unfold computeLongestStreak
  rw [show sortedDays e₁ = sortedDays e₂ from sortedDays_ext h]

/-- Witness for C4, containing the claim's concrete instance: duplicating
`"2025-01-01"` does not change the result, and the streak has length 2. -/
theorem c4_witness :
    (∀ x, x ∈ ([⟨"2025-01-01", none, "u"⟩, ⟨"2025-01-01", none, "u"⟩,
          ⟨"2025-01-02", none, "u"⟩] : List DiaryEntry).map (fun e => e.date) ↔
        x ∈ ([⟨"2025-01-01", none, "u"⟩, ⟨"2025-01-02", none, "u"⟩] :
          List DiaryEntry).map (fun e => e.date)) ∧
    computeLongestStreak
        [⟨"2025-01-01", none, "u"⟩, ⟨"2025-01-01", none, "u"⟩, ⟨"2025-01-02", none, "u"⟩] =
      computeLongestStreak [⟨"2025-01-01", none, "u"⟩, ⟨"2025-01-02", none, "u"⟩] ∧
    computeLongestStreak
        [⟨"2025-01-01", none, "u"⟩, ⟨"2025-01-01", none, "u"⟩, ⟨"2025-01-02", none, "u"⟩] =
      ⟨2, some "2025-01-01", some "2025-01-02"⟩ :=
  have hm : ∀ x, x ∈ ([⟨"2025-01-01", none, "u"⟩, ⟨"2025-01-01", none, "u"⟩,
          ⟨"2025-01-02", none, "u"⟩] : List DiaryEntry).map (fun e => e.date) ↔
        x ∈ ([⟨"2025-01-01", none, "u"⟩, ⟨"2025-01-02", none, "u"⟩] :
          List DiaryEntry).map (fun e => e.date) := by
    intro x
    simp only [List.map_cons, List.map_nil, List.mem_cons, List.not_mem_nil, or_false]
    tauto
  ⟨hm, c4_streak_depends_only_on_date_set _ _ hm, by decide⟩

/-! ### C7: the fallback strategy fires only on total primary failure -/

/-- Claim C7: whenever the row-based primary strategy produces at least one
entry, `parseDiaryEntries` returns exactly the primary entries — no
fallback-derived entry appears in the output. -/
theorem c7_no_fallback_on_primary_success (doc : DocView) (h : rowEntries doc ≠ []) :
    parseDiaryEntries doc = rowEntries doc := by
  unfold parseDiaryEntries
  simp [List.isEmpty_iff, h]

theorem c7_witness :
    rowEntries ⟨[⟨some "2025-03-03", none, none, some "/u/film/x/", "A Film"⟩], [],
        [⟨some "/u/film/y/", "Other", none, none⟩]⟩ ≠ [] ∧
    parseDiaryEntries ⟨[⟨some "2025-03-03", none, none, some "/u/film/x/", "A Film"⟩], [],
        [⟨some "/u/film/y/", "Other", none, none⟩]⟩ =
      rowEntries ⟨[⟨some "2025-03-03", none, none, some "/u/film/x/", "A Film"⟩], [],
        [⟨some "/u/film/y/", "Other", none, none⟩]⟩ :=
  ⟨by decide, c7_no_fallback_on_primary_success _ (by decide)⟩

/-! ### C8: every parsed entry carries an absolutized film URL -/

theorem strStartsWith_absolutize (h : String) :
    strStartsWith (absolutize h) "http" = true := by
  unfold absolutize
  split
  · assumption
  · show List.isPrefixOf _ _ = true
    rw [String.data_append]
    rfl

theorem parseRow_none (row : RowView) (h : textOrNull row.filmAnchorHref = none) :
    parseRow row = none := by
  unfold parseRow
  rw [h]

theorem parseRow_filmUrl (row : RowView) (e : RawEntry) (he : parseRow row = some e) :
    ∃ h, textOrNull row.filmAnchorHref = some h ∧ e.filmUrl = some (absolutize h) := by
  unfold parseRow at he
  cases hh : textOrNull row.filmAnchorHref with
  | none => rw [hh] at he; exact absurd he (by simp)
  | some h =>
    rw [hh] at he
    simp only [Option.some.injEq] at he
    exact ⟨h, rfl, by rw [← he]⟩

theorem parseFilmLink_none (l : FilmLinkView) (h : textOrNull l.href = none) :
    parseFilmLink l = none := by
  unfold parseFilmLink
  rw [h]

theorem parseFilmLink_filmUrl (l : FilmLinkView) (e : RawEntry) (he : parseFilmLink l = some e) :
    ∃ h, textOrNull l.href = some h ∧ e.filmUrl = some (absolutize h) := by
  unfold parseFilmLink at he
  cases hh : textOrNull l.href with
  | none => rw [hh] at he; exact absurd he (by simp)
  | some h =>
    rw [hh] at he
    simp only [Option.some.injEq] at he
    exact ⟨h, rfl, by rw [← he]⟩

/-- Claim C8: every entry `parseDiaryEntries` returns — from either strategy —
comes from a source element (a row of the selected row set, or a fallback
film link) whose trimmed href is some `h`, and its `filmUrl` is exactly `h`
when `h` starts with `"http"` and `"https://letterboxd.com" ++ h` otherwise;
in either case the `filmUrl` is non-null and starts with `"http"`.  An
element with no href produces no entry at all (rows via `parseRow`, fallback
links via `parseFilmLink`). -/
theorem c8_filmUrl_absolute (doc : DocView) :
    (∀ e ∈ parseDiaryEntries doc,
      ∃ h : String,
        ((∃ row ∈ (if doc.diaryRows.isEmpty then doc.allRows else doc.diaryRows),
            parseRow row = some e ∧ textOrNull row.filmAnchorHref = some h) ∨
          (∃ l ∈ doc.filmLinks,
            parseFilmLink l = some e ∧ textOrNull l.href = some h)) ∧
        ((strStartsWith h "http" = true ∧ e.filmUrl = some h) ∨
          (strStartsWith h "http" = false ∧
            e.filmUrl = some ("https://letterboxd.com" ++ h))) ∧
        (∃ u, e.filmUrl = some u ∧ strStartsWith u "http" = true)) ∧
    (∀ row : RowView, textOrNull row.filmAnchorHref = none → parseRow row = none) ∧
    (∀ l : FilmLinkView, textOrNull l.href = none → parseFilmLink l = none) := by
  refine ⟨fun e he => ?_, parseRow_none, parseFilmLink_none⟩
  have habs : ∀ h : String,
      (strStartsWith h "http" = true ∧ absolutize h = h) ∨
      (strStartsWith h "http" = false ∧
        absolutize h = "https://letterboxd.com" ++ h) := by
    intro h
    cases hs : strStartsWith h "http" with
    | true => exact Or.inl ⟨rfl, by simp [absolutize, hs]⟩
    | false => exact Or.inr ⟨rfl, by simp [absolutize, hs]⟩
  have he' : e ∈ (if (rowEntries doc).isEmpty then doc.filmLinks.filterMap parseFilmLink
      else rowEntries doc) := he
  clear he
  split at he'
  · obtain ⟨l, hlm, hl⟩ := List.mem_filterMap.1 he'
    obtain ⟨h, hth, hu⟩ := parseFilmLink_filmUrl l e hl
    refine ⟨h, Or.inr ⟨l, hlm, hl, hth⟩, ?_, absolutize h, hu, strStartsWith_absolutize h⟩
    rcases habs h with ⟨hs, heq⟩ | ⟨hs, heq⟩
    · exact Or.inl ⟨hs, by rw [hu, heq]⟩
    · exact Or.inr ⟨hs, by rw [hu, heq]⟩
  · have he2 : e ∈ (if doc.diaryRows.isEmpty then doc.allRows
        else doc.diaryRows).filterMap parseRow := he'
    obtain ⟨row, hrm, hr⟩ := List.mem_filterMap.1 he2
    obtain ⟨h, hth, hu⟩ := parseRow_filmUrl row e hr
    refine ⟨h, Or.inl ⟨row, hrm, hr, hth⟩, ?_, absolutize h, hu, strStartsWith_absolutize h⟩
    rcases habs h with ⟨hs, heq⟩ | ⟨hs, heq⟩
    · exact Or.inl ⟨hs, by rw [hu, heq]⟩
    · exact Or.inr ⟨hs, by rw [hu, heq]⟩

/-! ### C9: the top-5 lists of `computeStats` -/

/-- Keys of a counting object, in insertion order. -/
def accKeys (acc : List (String × Nat)) : List String := acc.map Prod.fst

theorem insertCount_keys (k : String) :
    ∀ acc : List (String × Nat),
      accKeys (insertCount acc k) =
        if k ∈ accKeys acc then accKeys acc else accKeys acc ++ [k] := by
  intro acc
  induction acc with
  | nil => simp [insertCount, accKeys]
  | cons hd rest ih =>
    obtain ⟨k', c⟩ := hd
    by_cases h : k' = k
    · subst h
      simp [insertCount, accKeys]
    · have hne : ¬(k = k') := fun hh => h hh.symm
      simp only [insertCount, if_neg h, accKeys, List.map_cons] at ih ⊢
      by_cases hk : k ∈ List.map Prod.fst rest
      · simp [hk, ih, hne]
      · simp [hk, ih, hne]

theorem insertCount_mem_cases (k : String) :
    ∀ (acc : List (String × Nat)) (p : String × Nat),
      (accKeys acc).Nodup → p ∈ insertCount acc k →
      (p.1 ≠ k ∧ p ∈ acc) ∨ (∃ c, p = (k, c + 1) ∧ (k, c) ∈ acc) ∨
        (p = (k, 1) ∧ k ∉ accKeys acc) := by
  intro acc
  induction acc with
  | nil =>
    intro p _ hp
    simp only [insertCount, List.mem_singleton] at hp
    exact Or.inr (Or.inr ⟨hp, by simp [accKeys]⟩)
  | cons hd rest ih =>
    obtain ⟨k', c⟩ := hd
    intro p hnd hp
    simp only [accKeys, List.map_cons, List.nodup_cons] at hnd
    by_cases h : k' = k
    · subst h
      simp only [insertCount] at hp
      rw [if_true, List.mem_cons] at hp
      rcases hp with hp1 | hp2
      · exact Or.inr (Or.inl ⟨c, hp1, List.mem_cons_self _ _⟩)
      · refine Or.inl ⟨fun h1 => hnd.1 ?_, List.mem_cons_of_mem _ hp2⟩
        rw [← h1]
        exact List.mem_map_of_mem Prod.fst hp2
    · simp only [insertCount, if_neg h, List.mem_cons] at hp
      rcases hp with hp1 | hp2
      · rw [hp1]
        exact Or.inl ⟨fun h1 => h h1, List.mem_cons_self _ _⟩
      · rcases ih p hnd.2 hp2 with h1 | ⟨c1, hpe, h2⟩ | ⟨hpe, h3⟩
        · exact Or.inl ⟨h1.1, List.mem_cons_of_mem _ h1.2⟩
        · exact Or.inr (Or.inl ⟨c1, hpe, List.mem_cons_of_mem _ h2⟩)
        · refine Or.inr (Or.inr ⟨hpe, ?_⟩)
          simp only [accKeys, List.map_cons, List.mem_cons]
          rintro (h4 | h4)
          · exact h h4.symm
          · exact h3 h4

/-- The invariant of the `byMonth` / `byDay` accumulation. -/
def CountInv (acc : List (String × Nat)) (processed : List String) : Prop :=
  (accKeys acc).Nodup ∧ (∀ p ∈ acc, p.2 = processed.count p.1 ∧ 1 ≤ p.2) ∧
    (∀ x, x ∉ accKeys acc → processed.count x = 0)

theorem countInv_insert {acc : List (String × Nat)} {processed : List String}
    (h : CountInv acc processed) (k : String) :
    CountInv (insertCount acc k) (processed ++ [k]) := by
  obtain ⟨hnd, hcnt, hzero⟩ := h
  refine ⟨?_, ?_, ?_⟩
  · rw [insertCount_keys]
    split
    · exact hnd
    · next hk =>
      exact List.Nodup.append hnd (List.nodup_singleton k) (by simpa using hk)
  · intro p hp
    rcases insertCount_mem_cases k acc p hnd hp with ⟨hne, hmem⟩ | ⟨c, rfl, hmem⟩ | ⟨rfl, hk⟩
    · have := hcnt p hmem
      simp only [List.count_append] at *
      constructor
      · rw [this.1]
        simp [List.count_cons, hne]
      · exact this.2
    · have := hcnt (k, c) hmem
      simp only [List.count_append]
      constructor
      · simp only [this.1.symm, List.count_cons, List.count_nil]
        simp
      · omega
    · simp only [List.count_append]
      constructor
      · rw [hzero k hk]
        simp [List.count_cons]
      · exact Nat.le_refl 1
  · intro x hx
    rw [insertCount_keys] at hx
    have hxk : x ≠ k := by
      intro h
      subst h
      split at hx <;> simp_all
    have hxacc : x ∉ accKeys acc := by
      split at hx <;> simp_all
    simp [List.count_append, hzero x hxacc, List.count_cons, hxk]

theorem countInv_foldl :
    ∀ (keys : List String) (acc : List (String × Nat)) (processed : List String),
      CountInv acc processed → CountInv (keys.foldl insertCount acc) (processed ++ keys)
  | [], acc, processed, h => by simpa using h
  | k :: keys, acc, processed, h => by
    have := countInv_foldl keys (insertCount acc k) (processed ++ [k]) (countInv_insert h k)
    simpa using this

theorem countByKey_spec (keys : List String) :
    ∀ p ∈ countByKey keys, p.2 = keys.count p.1 ∧ p.1 ∈ keys := by
  have h : CountInv (countByKey keys) ([] ++ keys) :=
    countInv_foldl keys [] [] ⟨List.nodup_nil, by simp, by simp⟩
  intro p hp
  have h1 := h.2.1 p hp
  simp only [List.nil_append] at h1
  exact ⟨h1.1, List.count_pos_iff.1 (Nat.lt_of_lt_of_le (h1.1 ▸ h1.2) (Nat.le_refl _))⟩

/-- Claim C9: for every entry list the `topMonths` and `topDays` lists of
`computeStats` have at most 5 elements, their counts are non-increasing, and
each element's count is the number of input entries whose key — the first 7
date characters for months, the full date string for days — equals the
element's key (which occurs in the input). -/
theorem c9_top5_sorted_counts (entries : List DiaryEntry) :
    (computeStats entries).topMonths.length ≤ 5 ∧
    (computeStats entries).topDays.length ≤ 5 ∧
    (computeStats entries).topMonths.Pairwise (fun a b => b.count ≤ a.count) ∧
    (computeStats entries).topDays.Pairwise (fun a b => b.count ≤ a.count) ∧
    (∀ x ∈ (computeStats entries).topMonths,
      x.count = (entries.map (fun e => e.date.take 7)).count x.month ∧
        x.month ∈ entries.map (fun e => e.date.take 7)) ∧
    (∀ x ∈ (computeStats entries).topDays,
      x.count = (entries.map (fun e => e.date)).count x.date ∧
        x.date ∈ entries.map (fun e => e.date)) := by
  have hlen : ∀ (l : List (String × Nat)),
      (((sortByCountDesc l).take 5).map (fun p => MonthCount.mk p.1 p.2)).length ≤ 5 := by
    intro l
    simp [List.length_take]
  have hlen' : ∀ (l : List (String × Nat)),
      (((sortByCountDesc l).take 5).map (fun p => DayCount.mk p.1 p.2)).length ≤ 5 := by
    intro l
    simp [List.length_take]
  have hsorted : ∀ (l : List (String × Nat)),
      ((sortByCountDesc l).take 5).Pairwise countDescRel := by
    intro l
    exact (List.sorted_insertionSort countDescRel l).sublist (List.take_sublist 5 _)
  have hmem : ∀ (l : List (String × Nat)) (p : String × Nat),
      p ∈ (sortByCountDesc l).take 5 → p ∈ l := by
    intro l p hp
    exact (List.perm_insertionSort countDescRel l).subset
      ((List.take_sublist 5 _).subset hp)
  have htm : (computeStats entries).topMonths =
      ((sortByCountDesc (countByKey (entries.map fun e => e.date.take 7))).take 5).map
        (fun p => MonthCount.mk p.1 p.2) := rfl
  have htd : (computeStats entries).topDays =
      ((sortByCountDesc (countByKey (entries.map fun e => e.date))).take 5).map
        (fun p => DayCount.mk p.1 p.2) := rfl
  rw [htm, htd]
  refine ⟨hlen _, hlen' _, ?_, ?_, ?_, ?_⟩
  · rw [List.pairwise_map]
    exact hsorted _
  · rw [List.pairwise_map]
    exact hsorted _
  · intro x hx
    obtain ⟨p, hp, rfl⟩ := List.mem_map.1 hx
    exact countByKey_spec _ p (hmem _ p hp)
  · intro x hx
    obtain ⟨p, hp, rfl⟩ := List.mem_map.1 hx
    exact countByKey_spec _ p (hmem _ p hp)

/-! ### The streak loop on runs of consecutive days

A *run* is a non-empty block of dates in which each date is exactly one day
after the previous one (`isNextDay`).  The two lemmas below describe the loop
exactly: walking a fresh run of length `L` sets the current streak to the
whole run and updates the best record iff `L` strictly exceeds it. -/

/-- `Chain1 r`: consecutive elements of `r` are consecutive days. -/
def Chain1 (r : List String) : Prop :=
  List.Chain' (fun a b => isNextDay a b = true) r

/-- The gap between two runs: the first day of the second is not the
successor of the last day of the first. -/
def RunGap (r r' : List String) : Prop :=
  isNextDay r.getLastI r'.headI = false

theorem getLastI_cons_cons :
    ∀ (a b : String) (l : List String), (a :: b :: l).getLastI = (b :: l).getLastI
  | _, _, [] => rfl
  | _, _, [_] => rfl
  | _, _, c :: d :: l => getLastI_cons_cons c d l

theorem streakStep_next (st : StreakState) (d p : String) (hp : st.prev = some p)
    (h : isNextDay p d = true) :
    streakStep st d =
      ⟨if st.bestLen < st.curLen + 1 then st.curLen + 1 else st.bestLen,
       if st.bestLen < st.curLen + 1 then st.curStart else st.bestStart,
       if st.bestLen < st.curLen + 1 then some d else st.bestEnd,
       st.curLen + 1, st.curStart, some d⟩ := by
  unfold streakStep
  rw [hp]
  simp only [h, if_true]
  split_ifs <;> rfl

theorem streakStep_reset (st : StreakState) (d : String)
    (hprev : st.prev = none ∨ ∃ p, st.prev = some p ∧ isNextDay p d = false) :
    streakStep st d =
      ⟨if st.bestLen < 1 then 1 else st.bestLen,
       if st.bestLen < 1 then some d else st.bestStart,
       if st.bestLen < 1 then some d else st.bestEnd,
       1, some d, some d⟩ := by
  unfold streakStep
  rcases hprev with h | ⟨p, hp, hnd⟩
  · rw [h]
    dsimp only
    split_ifs <;> rfl
  · rw [hp]
    simp only [hnd, Bool.false_eq_true, if_false]
    split_ifs <;> rfl

theorem foldl_streakStep_chain_aux :
    ∀ (rest : List String) (c : String) (st : StreakState),
      Chain1 (c :: rest) → st.prev = some c → st.curLen ≤ st.bestLen →
      List.foldl streakStep st rest =
        ⟨if st.bestLen < st.curLen + rest.length then st.curLen + rest.length else st.bestLen,
         if st.bestLen < st.curLen + rest.length then st.curStart else st.bestStart,
         if st.bestLen < st.curLen + rest.length then some ((c :: rest).getLastI)
           else st.bestEnd,
         st.curLen + rest.length, st.curStart, some ((c :: rest).getLastI)⟩
  | [], c, st, _, hprev, hcb => by
    have hno : ¬ st.bestLen < st.curLen := by omega
    simp only [List.foldl_nil, List.length_nil, Nat.add_zero, hno, if_false, List.getLastI]
    rw [← hprev]
  | d :: rest', c, st, hc, hprev, hcb => by
    have hcd : isNextDay c d = true := (List.chain'_cons.mp hc).1
    have hc' : Chain1 (d :: rest') := (List.chain'_cons.mp hc).2
    have hstep := streakStep_next st d c hprev hcd
    have hcb' : (streakStep st d).curLen ≤ (streakStep st d).bestLen := by
      rw [hstep]
      dsimp only
      split_ifs <;> omega
    have hprev' : (streakStep st d).prev = some d := by rw [hstep]
    have ih := foldl_streakStep_chain_aux rest' d (streakStep st d) hc' hprev' hcb'
    rw [List.foldl_cons, ih, hstep]
    dsimp only
    rw [getLastI_cons_cons]
    simp only [List.length_cons]
    by_cases hn : rest' = []
    · subst hn
      split_ifs <;>
        first
          | rfl
          | (exfalso; omega)
          | (simp only [StreakState.mk.injEq, eq_self_iff_true, and_true, true_and]
             omega)
    · have hn' : 1 ≤ rest'.length := by
        cases rest' with
        | nil => exact absurd rfl hn
        | cons x xs => simp
      split_ifs <;>
        first
          | rfl
          | (exfalso; omega)
          | (simp only [StreakState.mk.injEq, eq_self_iff_true, and_true, true_and]
             omega)

theorem foldl_streakStep_run (r : List String) (hr : r ≠ []) (hc : Chain1 r)
    (st : StreakState) (hcb : st.curLen ≤ st.bestLen)
    (hprev : st.prev = none ∨ ∃ p, st.prev = some p ∧ isNextDay p r.headI = false) :
    List.foldl streakStep st r =
      ⟨if st.bestLen < r.length then r.length else st.bestLen,
       if st.bestLen < r.length then some r.headI else st.bestStart,
       if st.bestLen < r.length then some r.getLastI else st.bestEnd,
       r.length, some r.headI, some r.getLastI⟩ := by
  obtain ⟨d₀, rest, rfl⟩ := List.exists_cons_of_ne_nil hr
  have hstep := streakStep_reset st d₀ (by simpa using hprev)
  have hcb1 : (streakStep st d₀).curLen ≤ (streakStep st d₀).bestLen := by
    rw [hstep]
    dsimp only
    split_ifs <;> omega
  have hprev1 : (streakStep st d₀).prev = some d₀ := by rw [hstep]
  have ih := foldl_streakStep_chain_aux rest d₀ (streakStep st d₀) hc hprev1 hcb1
  rw [List.foldl_cons, ih, hstep]
  dsimp only
  simp only [List.length_cons, List.headI_cons]
  by_cases hn : rest = []
  · subst hn
    split_ifs <;>
      first
        | rfl
        | (exfalso; omega)
        | (simp only [StreakState.mk.injEq, eq_self_iff_true, and_true, true_and]
           omega)
  · have hn' : 1 ≤ rest.length := by
      cases rest with
      | nil => exact absurd rfl hn
      | cons x xs => simp
    split_ifs <;>
      first
        | rfl
        | (exfalso; omega)
        | (simp only [StreakState.mk.injEq, eq_self_iff_true, and_true, true_and]
           omega)

instance (r : List String) : Decidable (Chain1 r) :=
  inferInstanceAs (Decidable (List.Chain' _ r))

instance : DecidableRel RunGap :=
  fun r r' => inferInstanceAs (Decidable (isNextDay r.getLastI r'.headI = false))

/-- Folding runs that cannot beat the current best leaves the best record
untouched. -/
theorem foldl_streakStep_runs_small :
    ∀ (rs : List (List String)) (st : StreakState),
      (∀ r ∈ rs, r ≠ [] ∧ Chain1 r ∧ r.length ≤ st.bestLen) →
      st.curLen ≤ st.bestLen →
      (∀ a t, rs = a :: t →
        st.prev = none ∨ ∃ p, st.prev = some p ∧ isNextDay p a.headI = false) →
      List.Chain' RunGap rs →
      (List.foldl streakStep st rs.flatten).bestLen = st.bestLen ∧
      (List.foldl streakStep st rs.flatten).bestStart = st.bestStart ∧
      (List.foldl streakStep st rs.flatten).bestEnd = st.bestEnd
  | [], st, _, _, _, _ => by simp
  | r :: rs', st, hall, hcb, hgap0, hchain => by
    obtain ⟨hne, hc1, hle⟩ := hall r (List.mem_cons_self _ _)
    have hrun := foldl_streakStep_run r hne hc1 st hcb (hgap0 r rs' rfl)
    have hnotlt : ¬ st.bestLen < r.length := by omega
    simp only [if_neg hnotlt] at hrun
    have hst2cb : (List.foldl streakStep st r).curLen ≤ (List.foldl streakStep st r).bestLen := by
      rw [hrun]
      exact hle
    have hall' : ∀ r' ∈ rs', r' ≠ [] ∧ Chain1 r' ∧
        r'.length ≤ (List.foldl streakStep st r).bestLen := by
      intro r' hr'
      obtain ⟨h1, h2, h3⟩ := hall r' (List.mem_cons_of_mem _ hr')
      rw [hrun]
      exact ⟨h1, h2, h3⟩
    have hgap0' : ∀ a t, rs' = a :: t →
        (List.foldl streakStep st r).prev = none ∨
          ∃ p, (List.foldl streakStep st r).prev = some p ∧ isNextDay p a.headI = false := by
      intro a t ht
      refine Or.inr ⟨r.getLastI, by rw [hrun], ?_⟩
      subst ht
      exact (List.chain'_cons.mp hchain).1
    have ih := foldl_streakStep_runs_small rs' (List.foldl streakStep st r)
      hall' hst2cb hgap0' ((List.chain'_cons'.mp hchain).2)
    rw [List.flatten_cons, List.foldl_append]
    rw [ih.1, ih.2.1, ih.2.2, hrun]
    exact ⟨rfl, rfl, rfl⟩

/-- Folding a decomposition `pre ++ rj :: post` in which all runs before `rj`
are strictly shorter and all runs after it are no longer makes `rj` the
reported best. -/
theorem foldl_streakStep_first_max :
    ∀ (pre : List (List String)) (rj : List String) (post : List (List String))
      (st : StreakState),
      (∀ r ∈ pre ++ rj :: post, r ≠ [] ∧ Chain1 r) →
      List.Chain' RunGap (pre ++ rj :: post) →
      (∀ a t, pre ++ rj :: post = a :: t →
        st.prev = none ∨ ∃ p, st.prev = some p ∧ isNextDay p a.headI = false) →
      st.curLen ≤ st.bestLen →
      st.bestLen < rj.length →
      (∀ r ∈ pre, r.length < rj.length) →
      (∀ r ∈ post, r.length ≤ rj.length) →
      (List.foldl streakStep st (pre ++ rj :: post).flatten).bestLen = rj.length ∧
      (List.foldl streakStep st (pre ++ rj :: post).flatten).bestStart = some rj.headI ∧
      (List.foldl streakStep st (pre ++ rj :: post).flatten).bestEnd = some rj.getLastI
  | [], rj, post, st, hall, hchain, hgap0, hcb, hbest, _, hpost => by
    obtain ⟨hne, hc1⟩ := hall rj (by simp)
    have hrun := foldl_streakStep_run rj hne hc1 st hcb (hgap0 rj post rfl)
    simp only [if_pos hbest] at hrun
    have hst2cb : (List.foldl streakStep st rj).curLen ≤
        (List.foldl streakStep st rj).bestLen := by
      rw [hrun]
    have hall' : ∀ r' ∈ post, r' ≠ [] ∧ Chain1 r' ∧
        r'.length ≤ (List.foldl streakStep st rj).bestLen := by
      intro r' hr'
      obtain ⟨h1, h2⟩ := hall r' (by simp [hr'])
      rw [hrun]
      exact ⟨h1, h2, hpost r' hr'⟩
    have hgap0' : ∀ a t, post = a :: t →
        (List.foldl streakStep st rj).prev = none ∨
          ∃ p, (List.foldl streakStep st rj).prev = some p ∧ isNextDay p a.headI = false := by
      intro a t ht
      refine Or.inr ⟨rj.getLastI, by rw [hrun], ?_⟩
      subst ht
      exact (List.chain'_cons.mp (hchain : List.Chain' RunGap (rj :: a :: t))).1
    have hsmall := foldl_streakStep_runs_small post (List.foldl streakStep st rj)
      hall' hst2cb hgap0'
      ((List.chain'_cons'.mp (hchain : List.Chain' RunGap (rj :: post))).2)
    rw [List.nil_append, List.flatten_cons, List.foldl_append]
    rw [hsmall.1, hsmall.2.1, hsmall.2.2, hrun]
    exact ⟨rfl, rfl, rfl⟩
  | r₀ :: pre', rj, post, st, hall, hchain, hgap0, hcb, hbest, hpre, hpost => by
    obtain ⟨hne, hc1⟩ := hall r₀ (by simp)
    have hrun := foldl_streakStep_run r₀ hne hc1 st hcb (hgap0 r₀ (pre' ++ rj :: post) rfl)
    have hr0len : r₀.length < rj.length := hpre r₀ (List.mem_cons_self _ _)
    have hst2b : (List.foldl streakStep st r₀).bestLen < rj.length := by
      rw [hrun]
      dsimp only
      split_ifs <;> omega
    have hst2cb : (List.foldl streakStep st r₀).curLen ≤
        (List.foldl streakStep st r₀).bestLen := by
      rw [hrun]
      dsimp only
      split_ifs <;> omega
    have hgap0' : ∀ a t, pre' ++ rj :: post = a :: t →
        (List.foldl streakStep st r₀).prev = none ∨
          ∃ p, (List.foldl streakStep st r₀).prev = some p ∧ isNextDay p a.headI = false := by
      intro a t ht
      refine Or.inr ⟨r₀.getLastI, by rw [hrun], ?_⟩
      have h2 : List.Chain' RunGap (r₀ :: (pre' ++ rj :: post)) := hchain
      rw [ht] at h2
      exact (List.chain'_cons.mp h2).1
    have ih := foldl_streakStep_first_max pre' rj post (List.foldl streakStep st r₀)
      (fun r hr => hall r (List.mem_cons_of_mem _ hr))
      ((List.chain'_cons'.mp (hchain : List.Chain' RunGap (r₀ :: (pre' ++ rj :: post)))).2)
      hgap0' hst2cb hst2b
      (fun r hr => hpre r (List.mem_cons_of_mem _ hr)) hpost
    rw [List.cons_append, List.flatten_cons, List.foldl_append]
    exact ih

/-- Claim C2: when the sorted deduplicated date sequence decomposes into
maximal runs of consecutive days (separated by gaps) and `rj` is the first
run of greatest length — every earlier run strictly shorter, every later run
no longer — then `computeLongestStreak` reports exactly `rj`: ties go to the
chronologically earliest run, because the best record is updated only on a
strict improvement. -/
theorem c2_first_maximal_run (entries : List DiaryEntry) (pre post : List (List String))
    (rj : List String)
    (hjoin : sortedDays entries = (pre ++ rj :: post).flatten)
    (hruns : ∀ r ∈ pre ++ rj :: post, r ≠ [] ∧ Chain1 r)
    (hgap : List.Chain' RunGap (pre ++ rj :: post))
    (hpre : ∀ r ∈ pre, r.length < rj.length)
    (hpost : ∀ r ∈ post, r.length ≤ rj.length) :
    computeLongestStreak entries = ⟨rj.length, some rj.headI, some rj.getLastI⟩ := by
  have hrj : rj ≠ [] := (hruns rj (by simp)).1
  have hlen : 0 < rj.length := List.length_pos.mpr hrj
  have h := foldl_streakStep_first_max pre rj post initState hruns hgap
    (fun _ _ _ => Or.inl rfl) (Nat.le_refl 0) hlen hpre hpost
  have heq : computeLongestStreak entries =
      ⟨((pre ++ rj :: post).flatten.foldl streakStep initState).bestLen,
       ((pre ++ rj :: post).flatten.foldl streakStep initState).bestStart,
       ((pre ++ rj :: post).flatten.foldl streakStep initState).bestEnd⟩ := by
    unfold computeLongestStreak
    rw [hjoin]
  rw [heq, h.1, h.2.1, h.2.2]

/-- Witness for C2: the claim's concrete instance `["2025-01-01",
"2025-01-03"]` — two tied runs of length 1; the first one is reported. -/
theorem c2_witness :
    computeLongestStreak [⟨"2025-01-01", none, "u"⟩, ⟨"2025-01-03", none, "u"⟩] =
      ⟨1, some "2025-01-01", some "2025-01-01"⟩ :=
  c2_first_maximal_run [⟨"2025-01-01", none, "u"⟩, ⟨"2025-01-03", none, "u"⟩]
    [] [["2025-01-03"]] ["2025-01-01"]
    (by decide)
    (by
      intro r hr
      simp only [List.nil_append, List.mem_cons, List.not_mem_nil, or_false] at hr
      rcases hr with rfl | rfl
      · exact ⟨by decide, List.chain'_singleton _⟩
      · exact ⟨by decide, List.chain'_singleton _⟩)
    (List.chain'_cons.mpr ⟨by decide, List.chain'_singleton _⟩)
    (by intro r hr; simp at hr)
    (by
      intro r hr
      simp only [List.mem_cons, List.not_mem_nil, or_false] at hr
      subst hr
      decide)

/-! ### C3: the `StreakResult` invariant -/

theorem isNextDay_iff (p d : String) :
    isNextDay p d = true ↔ ∃ a b, dateVal p = some a ∧ dateVal d = some b ∧ b = a + 1 := by
  unfold isNextDay
  cases hp : dateVal p <;> cases hd : dateVal d <;> simp

theorem getLastI_append_singleton :
    ∀ (l : List String) (d : String), (l ++ [d]).getLastI = d
  | [], _ => rfl
  | [_], _ => rfl
  | a :: b :: l, d => by
    rw [List.cons_append, List.cons_append, getLastI_cons_cons, ← List.cons_append]
    exact getLastI_append_singleton (b :: l) d

/-- The invariant the streak loop maintains after processing the (non-empty)
list `processed`: the current run is a chain of consecutive days ending at the
last processed date, and the best record is a chain of consecutive days whose
endpoints were processed. -/
def InvP (processed : List String) (st : StreakState) : Prop :=
  (processed = [] → st = initState) ∧
  (processed ≠ [] →
    st.prev = some processed.getLastI ∧
    1 ≤ st.curLen ∧ st.curLen ≤ st.bestLen ∧
    (∃ cs, st.curStart = some cs ∧ cs ∈ processed ∧
      ∃ va vb, dateVal cs = some va ∧ dateVal processed.getLastI = some vb ∧
        vb = va + (st.curLen - 1)) ∧
    (∃ bs be, st.bestStart = some bs ∧ st.bestEnd = some be ∧
      bs ∈ processed ∧ be ∈ processed ∧
      ∃ wa wb, dateVal bs = some wa ∧ dateVal be = some wb ∧
        wb = wa + (st.bestLen - 1)))

theorem invP_init : InvP [] initState :=
  ⟨fun _ => rfl, fun h => absurd rfl h⟩

theorem invP_step (processed : List String) (st : StreakState) (d : String)
    (hvd : (dateVal d).isSome = true) (hinv : InvP processed st) :
    InvP (processed ++ [d]) (streakStep st d) := by
  obtain ⟨dv, hdv⟩ := Option.isSome_iff_exists.mp hvd
  constructor
  · intro h
    exact absurd h (by simp)
  · intro _
    rw [getLastI_append_singleton]
    rcases List.eq_nil_or_concat processed with rfl | _
    · -- first iteration ever
      have hst : st = initState := hinv.1 rfl
      subst hst
      have hstep : streakStep initState d = ⟨1, some d, some d, 1, some d, some d⟩ := rfl
      rw [hstep]
      dsimp only
      exact ⟨rfl, Nat.le_refl 1, Nat.le_refl 1,
        ⟨d, rfl, by simp, dv, dv, hdv, hdv, by omega⟩,
        d, d, rfl, rfl, by simp, by simp, dv, dv, hdv, hdv, by omega⟩
    · have hne : processed ≠ [] := by
        rintro rfl
        simp_all
      obtain ⟨hprev, hcl1, hclb, ⟨cs, hcs, hcsm, va, vb, hva, hvb, hchain⟩,
        bs, be, hbs, hbe, hbsm, hbem, wa, wb, hwa, hwb, hbchain⟩ := hinv.2 hne
      by_cases hnd : isNextDay processed.getLastI d = true
      · -- the run extends
        obtain ⟨a, b, ha, hb, hab⟩ := isNextDay_iff _ _ |>.mp hnd
        have hstep := streakStep_next st d processed.getLastI hprev hnd
        rw [hstep]
        dsimp only
        have hbd : b = dv := by
          rw [hdv] at hb
          exact (Option.some_inj.mp hb).symm
        have hab2 : a = vb := by
          rw [hvb] at ha
          exact (Option.some_inj.mp ha).symm
        by_cases hup : st.bestLen < st.curLen + 1
        · rw [if_pos hup, if_pos hup, if_pos hup]
          exact ⟨rfl, by omega, by omega,
            ⟨cs, hcs, List.mem_append_left _ hcsm, va, dv, hva, hdv, by omega⟩,
            cs, d, hcs, rfl, List.mem_append_left _ hcsm, by simp, va, dv, hva, hdv,
            by omega⟩
        · rw [if_neg hup, if_neg hup, if_neg hup]
          exact ⟨rfl, by omega, by omega,
            ⟨cs, hcs, List.mem_append_left _ hcsm, va, dv, hva, hdv, by omega⟩,
            bs, be, hbs, hbe, List.mem_append_left _ hbsm, List.mem_append_left _ hbem,
            wa, wb, hwa, hwb, hbchain⟩
      · -- the run resets at `d`
        have hstep := streakStep_reset st d (Or.inr ⟨processed.getLastI, hprev,
          Bool.not_eq_true _ ▸ hnd⟩)
        rw [hstep]
        dsimp only
        by_cases hup : st.bestLen < 1
        · rw [if_pos hup, if_pos hup, if_pos hup]
          exact ⟨rfl, Nat.le_refl 1, Nat.le_refl 1,
            ⟨d, rfl, by simp, dv, dv, hdv, hdv, by omega⟩,
            d, d, rfl, rfl, by simp, by simp, dv, dv, hdv, hdv, by omega⟩
        · rw [if_neg hup, if_neg hup, if_neg hup]
          exact ⟨rfl, Nat.le_refl 1, by omega,
            ⟨d, rfl, by simp, dv, dv, hdv, hdv, by omega⟩,
            bs, be, hbs, hbe, List.mem_append_left _ hbsm, List.mem_append_left _ hbem,
            wa, wb, hwa, hwb, hbchain⟩

theorem invP_foldl :
    ∀ (ds processed : List String) (st : StreakState),
      (∀ x ∈ ds, (dateVal x).isSome = true) → InvP processed st →
      InvP (processed ++ ds) (List.foldl streakStep st ds)
  | [], processed, st, _, hinv => by simpa using hinv
  | d :: ds, processed, st, hv, hinv => by
    have h1 := invP_step processed st d (hv d (List.mem_cons_self _ _)) hinv
    have h2 := invP_foldl ds (processed ++ [d]) (streakStep st d)
      (fun x hx => hv x (List.mem_cons_of_mem _ hx)) h1
    simpa using h2

theorem mem_sortedDays (entries : List DiaryEntry) (x : String) :
    x ∈ sortedDays entries ↔ x ∈ entries.map (fun e => e.date) := by
  unfold sortedDays
  rw [List.Perm.mem_iff (List.perm_insertionSort _ _), mem_firstDedup]

theorem sortedDays_eq_nil_iff (entries : List DiaryEntry) :
    sortedDays entries = [] ↔ entries = [] := by
  constructor
  · intro h
    cases entries with
    | nil => rfl
    | cons e es =>
      exfalso
      have hmem : e.date ∈ sortedDays (e :: es) := by
        rw [mem_sortedDays]
        simp
      rw [h] at hmem
      simp at hmem
  · rintro rfl
    rfl

/-- Claim C3: for entry lists with valid ISO dates, the result of
`computeLongestStreak` satisfies the `StreakResult` invariant: length 0 with
both endpoints `null` exactly for empty input; otherwise length ≥ 1, both
endpoints present in the deduplicated date set, and the end exactly
`length - 1` calendar days after the start. -/
theorem c3_streakResult_invariant (entries : List DiaryEntry)
    (hv : ∀ e ∈ entries, (dateVal e.date).isSome = true) :
    ((computeLongestStreak entries).length = 0 ↔ entries = []) ∧
    (entries = [] → computeLongestStreak entries = ⟨0, none, none⟩) ∧
    (entries ≠ [] →
      1 ≤ (computeLongestStreak entries).length ∧
      ∃ s e vs ve,
        (computeLongestStreak entries).start = some s ∧
        (computeLongestStreak entries).endD = some e ∧
        s ∈ firstDedup (entries.map (fun x => x.date)) ∧
        e ∈ firstDedup (entries.map (fun x => x.date)) ∧
        dateVal s = some vs ∧ dateVal e = some ve ∧
        ve = vs + ((computeLongestStreak entries).length - 1)) := by
  by_cases hemp : entries = []
  · subst hemp
    exact ⟨by constructor <;> intro <;> rfl, fun _ => rfl, fun h => absurd rfl h⟩
  · have hvds : ∀ x ∈ sortedDays entries, (dateVal x).isSome = true := by
      intro x hx
      rw [mem_sortedDays] at hx
      obtain ⟨e, he, rfl⟩ := List.mem_map.1 hx
      exact hv e he
    have hinv := invP_foldl (sortedDays entries) [] initState hvds invP_init
    simp only [List.nil_append] at hinv
    have hds : sortedDays entries ≠ [] := fun h => hemp ((sortedDays_eq_nil_iff _).1 h)
    obtain ⟨hprev, hcl1, hclb, -, bs, be, hbs, hbe, hbsm, hbem, wa, wb, hwa, hwb, hbchain⟩ :=
      hinv.2 hds
    have hlen1 : 1 ≤ (computeLongestStreak entries).length := by
      show 1 ≤ ((sortedDays entries).foldl streakStep initState).bestLen
      omega
    refine ⟨⟨fun h0 => ?_, fun h => absurd h hemp⟩, fun h => absurd h hemp,
      fun _ => ⟨hlen1, bs, be, wa, wb, hbs, hbe, ?_, ?_, hwa, hwb, hbchain⟩⟩
    · exfalso
      rw [show (computeLongestStreak entries).length =
        ((sortedDays entries).foldl streakStep initState).bestLen from rfl] at h0
      omega
    · exact (List.perm_insertionSort _ _).subset hbsm
    · exact (List.perm_insertionSort _ _).subset hbem

/-- Witness for C3, at the singleton input `["2025-02-10"]`. -/
theorem c3_witness :
    ((computeLongestStreak [⟨"2025-02-10", none, "u"⟩]).length = 0 ↔
      ([⟨"2025-02-10", none, "u"⟩] : List DiaryEntry) = []) ∧
    (([⟨"2025-02-10", none, "u"⟩] : List DiaryEntry) = [] →
      computeLongestStreak [⟨"2025-02-10", none, "u"⟩] = ⟨0, none, none⟩) ∧
    (([⟨"2025-02-10", none, "u"⟩] : List DiaryEntry) ≠ [] →
      1 ≤ (computeLongestStreak [⟨"2025-02-10", none, "u"⟩]).length ∧
      ∃ s e vs ve,
        (computeLongestStreak [⟨"2025-02-10", none, "u"⟩]).start = some s ∧
        (computeLongestStreak [⟨"2025-02-10", none, "u"⟩]).endD = some e ∧
        s ∈ firstDedup (([⟨"2025-02-10", none, "u"⟩] : List DiaryEntry).map
          (fun x => x.date)) ∧
        e ∈ firstDedup (([⟨"2025-02-10", none, "u"⟩] : List DiaryEntry).map
          (fun x => x.date)) ∧
        dateVal s = some vs ∧ dateVal e = some ve ∧
        ve = vs + ((computeLongestStreak [⟨"2025-02-10", none, "u"⟩]).length - 1)) :=
  c3_streakResult_invariant [⟨"2025-02-10", none, "u"⟩] (by decide)

/-! ### C5 and C6: the pagination loop's stop policy -/

/-- A page the loop walks through without stopping: not 404, ok, and the
parse yields at least one raw entry. -/
def goodPage (resp : Nat → PageView) (p : Nat) : Prop :=
  (resp p).status ≠ 404 ∧ (resp p).ok = true ∧ parseDiaryEntries (resp p).doc ≠ []

instance (resp : Nat → PageView) (p : Nat) : Decidable (goodPage resp p) :=
  inferInstanceAs (Decidable (_ ∧ _ ∧ _))

/-- The entries page `p` contributes to the accumulated list. -/
def pageItems (resp : Nat → PageView) (p : Nat) : List DiaryEntry :=
  (parseDiaryEntries (resp p).doc).filterMap accFilter

/-- All entries contributed by pages `s, s+1, …, s+n-1`. -/
def collected (resp : Nat → PageView) (s n : Nat) : List DiaryEntry :=
  (List.range' s n).flatMap (pageItems resp)

theorem collected_zero (resp : Nat → PageView) (s : Nat) : collected resp s 0 = [] := by
  simp [collected]

theorem collected_succ (resp : Nat → PageView) (s n : Nat) :
    collected resp s (n + 1) = pageItems resp s ++ collected resp (s + 1) n := by
  rw [collected, List.range'_succ]
  simp [collected]

theorem fetchPagesAux_step_good (resp : Nat → PageView) (fuel page : Nat)
    (acc : List DiaryEntry) (pf : Nat) (hg : goodPage resp page) :
    fetchPagesAux resp (fuel + 1) page acc pf =
      fetchPagesAux resp fuel (page + 1) (acc ++ pageItems resp page) (pf + 1) := by
  obtain ⟨h404, hok, hne⟩ := hg
  simp [fetchPagesAux, pageItems, h404, hok, hne]

theorem fetchPagesAux_allgood (resp : Nat → PageView) :
    ∀ (fuel page : Nat) (acc : List DiaryEntry) (pf : Nat),
      (∀ p, page ≤ p → p < page + fuel → goodPage resp p) →
      fetchPagesAux resp fuel page acc pf =
        (acc ++ collected resp page fuel, "max_pages_reached", pf + fuel)
  | 0, page, acc, pf, _ => by simp [fetchPagesAux, collected_zero]
  | fuel + 1, page, acc, pf, hg => by
    have hgood := hg page (Nat.le_refl _) (by omega)
    rw [fetchPagesAux_step_good resp fuel page acc pf hgood]
    rw [fetchPagesAux_allgood resp fuel (page + 1) (acc ++ pageItems resp page) (pf + 1)
      (fun p h1 h2 => hg p (by omega) (by omega))]
    rw [collected_succ, List.append_assoc]
    have : pf + 1 + fuel = pf + (fuel + 1) := by omega
    rw [this]

/-- The stop reason produced at the first non-good page. -/
def badReason (resp : Nat → PageView) (k : Nat) : String :=
  if (resp k).status = 404 then "diary_not_found_or_private"
  else if (resp k).ok = false then "diary_http_" ++ toString (resp k).status
  else "no_entries_on_page"

theorem fetchPagesAux_firstbad (resp : Nat → PageView) :
    ∀ (fuel page k : Nat) (acc : List DiaryEntry) (pf : Nat),
      page ≤ k → k < page + fuel →
      (∀ p, page ≤ p → p < k → goodPage resp p) →
      ¬ goodPage resp k →
      fetchPagesAux resp fuel page acc pf =
        (acc ++ collected resp page (k - page), badReason resp k, pf + (k - page) + 1)
  | 0, page, k, acc, pf, hpk, hkf, _, _ => by omega
  | fuel + 1, page, k, acc, pf, hpk, hkf, hgood, hbad => by
    by_cases hpk2 : page = k
    · subst hpk2
      unfold fetchPagesAux badReason
      simp only [Nat.sub_self, collected_zero, List.append_nil, Nat.add_zero]
      by_cases h404 : (resp page).status = 404
      · rw [if_pos h404, if_pos h404]
      · rw [if_neg h404, if_neg h404]
        by_cases hok : (resp page).ok = false
        · rw [if_pos (by rw [hok]), if_pos hok]
        · have hok' : (resp page).ok = true := by
            cases h : (resp page).ok
            · exact absurd h hok
            · rfl
          have hpe : parseDiaryEntries (resp page).doc = [] := by
            by_contra hne
            exact hbad ⟨h404, hok', hne⟩
          rw [if_neg (by rw [hok']; simp), if_neg hok]
          rw [if_pos (by rw [hpe]; rfl)]
    · have hlt : page < k := by omega
      have hgp := hgood page (Nat.le_refl _) hlt
      rw [fetchPagesAux_step_good resp fuel page acc pf hgp]
      rw [fetchPagesAux_firstbad resp fuel (page + 1) k (acc ++ pageItems resp page) (pf + 1)
        (by omega) (by omega) (fun p h1 h2 => hgood p (by omega) h2) hbad]
      have hn : k - page = (k - (page + 1)) + 1 := by omega
      rw [hn, collected_succ, List.append_assoc]
      have : pf + 1 + (k - (page + 1)) + 1 = pf + (k - (page + 1) + 1) + 1 := by omega
      rw [this]

theorem max_ne_collected : ("max_pages_reached" : String) ≠ "no_entries_collected" := by
  decide

theorem diary_http_ne_max (s : String) : "diary_http_" ++ s ≠ "max_pages_reached" := by
  intro h
  have hd := congrArg String.data h
  rw [String.data_append] at hd
  have hd2 : 'd' :: ("iary_http_".data ++ s.data) = 'm' :: "ax_pages_reached".data := hd
  exact absurd (List.cons.inj hd2).1 (by decide)

theorem diary_http_ne_collected (s : String) :
    "diary_http_" ++ s ≠ "no_entries_collected" := by
  intro h
  have hd := congrArg String.data h
  rw [String.data_append] at hd
  have hd2 : 'd' :: ("iary_http_".data ++ s.data) = 'n' :: "o_entries_collected".data := hd
  exact absurd (List.cons.inj hd2).1 (by decide)

theorem badReason_ne_max (resp : Nat → PageView) (k : Nat) :
    badReason resp k ≠ "max_pages_reached" := by
  unfold badReason
  split_ifs
  · decide
  · exact diary_http_ne_max _
  · decide

theorem badReason_ne_collected (resp : Nat → PageView) (k : Nat) :
    badReason resp k ≠ "no_entries_collected" := by
  unfold badReason
  split_ifs
  · decide
  · exact diary_http_ne_collected _
  · decide

theorem fetchDiaryForYear_firstbad (resp : Nat → PageView) (k : Nat)
    (h1 : 1 ≤ k) (h30 : k ≤ 30)
    (hgood : ∀ p, 1 ≤ p → p < k → goodPage resp p) (hbad : ¬ goodPage resp k) :
    fetchDiaryForYear resp = (collected resp 1 (k - 1), badReason resp k, k) := by
  have haux := fetchPagesAux_firstbad resp 30 1 k [] 0 h1 (by omega) hgood hbad
  rw [List.nil_append] at haux
  have harith : 0 + (k - 1) + 1 = k := by omega
  rw [harith] at haux
  have hfdy : fetchDiaryForYear resp =
      (collected resp 1 (k - 1),
       if collected resp 1 (k - 1) = [] ∧ badReason resp k = "max_pages_reached"
         then "no_entries_collected" else badReason resp k, k) := by
    simp only [fetchDiaryForYear, MAX_PAGES, haux]
  rw [hfdy, if_neg (fun hc => badReason_ne_max resp k hc.2)]

theorem fetchDiaryForYear_allgood (resp : Nat → PageView)
    (hall : ∀ p, 1 ≤ p → p ≤ 30 → goodPage resp p) :
    fetchDiaryForYear resp =
      (collected resp 1 30,
       if collected resp 1 30 = [] then "no_entries_collected" else "max_pages_reached",
       30) := by
  have haux := fetchPagesAux_allgood resp 30 1 [] 0
    (fun p hp1 hp2 => hall p hp1 (by omega))
  rw [List.nil_append, Nat.zero_add] at haux
  have hfdy : fetchDiaryForYear resp =
      (collected resp 1 30,
       if collected resp 1 30 = [] ∧ ("max_pages_reached" : String) = "max_pages_reached"
         then "no_entries_collected" else "max_pages_reached", 30) := by
    simp only [fetchDiaryForYear, MAX_PAGES, haux]
  rw [hfdy]
  by_cases hc : collected resp 1 30 = []
  · rw [if_pos ⟨hc, rfl⟩, if_pos hc]
  · rw [if_neg (fun h => hc h.1), if_neg hc]

/-- Claim C5: with the page fetches modelled as a sequence of responses, if
pages `1 … k-1` were walked through (not 404, ok, non-empty parse) then at
page `k` a 404 stops the loop with `"diary_not_found_or_private"`, any other
not-ok response with `"diary_http_{status}"`, and an ok response parsing to
zero raw entries with `"no_entries_on_page"` — in each case with exactly the
entries of pages `1 … k-1` accumulated (the zero-entry page contributes
nothing) and `k` pages fetched. -/
theorem c5_page_stop_policy (resp : Nat → PageView) (k : Nat) (h1 : 1 ≤ k) (h30 : k ≤ 30)
    (hgood : ∀ p, 1 ≤ p → p < k → goodPage resp p) :
    ((resp k).status = 404 →
      fetchDiaryForYear resp =
        (collected resp 1 (k - 1), "diary_not_found_or_private", k)) ∧
    ((resp k).status ≠ 404 → (resp k).ok = false →
      fetchDiaryForYear resp =
        (collected resp 1 (k - 1), "diary_http_" ++ toString (resp k).status, k)) ∧
    ((resp k).status ≠ 404 → (resp k).ok = true → parseDiaryEntries (resp k).doc = [] →
      fetchDiaryForYear resp = (collected resp 1 (k - 1), "no_entries_on_page", k)) := by
  refine ⟨fun h404 => ?_, fun h404 hok => ?_, fun h404 hok hpe => ?_⟩
  · have hbad : ¬ goodPage resp k := fun hg => hg.1 h404
    rw [fetchDiaryForYear_firstbad resp k h1 h30 hgood hbad]
    unfold badReason
    rw [if_pos h404]
  · have hbad : ¬ goodPage resp k := fun hg => absurd hg.2.1 (by rw [hok]; simp)
    rw [fetchDiaryForYear_firstbad resp k h1 h30 hgood hbad]
    unfold badReason
    rw [if_neg h404, if_pos hok]
  · have hbad : ¬ goodPage resp k := fun hg => hg.2.2 hpe
    rw [fetchDiaryForYear_firstbad resp k h1 h30 hgood hbad]
    unfold badReason
    rw [if_neg h404, if_neg (by rw [hok]; simp)]

/-- Witness for C5: a diary whose first page already returns 404. -/
theorem c5_witness :
    fetchDiaryForYear (fun _ => ⟨404, false, ⟨[], [], []⟩⟩) =
      ([], "diary_not_found_or_private", 1) :=
  (c5_page_stop_policy (fun _ => ⟨404, false, ⟨[], [], []⟩⟩) 1 (Nat.le_refl 1)
    (by omega) (fun p hp1 hp2 => absurd (Nat.lt_of_le_of_lt hp1 hp2) (Nat.lt_irrefl 1))).1 rfl

/-- Claim C6: `stoppedBecause = "no_entries_collected"` exactly when the loop
ran through all 30 pages (so the reason was still the default
`"max_pages_reached"`) and the accumulated list is empty; hitting the ceiling
with at least one entry keeps `"max_pages_reached"`, and an earlier break
reason is never overridden. -/
theorem c6_no_entries_collected_iff (resp : Nat → PageView) :
    ((fetchDiaryForYear resp).2.1 = "no_entries_collected" ↔
      ((∀ p, 1 ≤ p → p ≤ 30 → goodPage resp p) ∧ (fetchDiaryForYear resp).1 = [])) ∧
    ((∀ p, 1 ≤ p → p ≤ 30 → goodPage resp p) → (fetchDiaryForYear resp).1 ≠ [] →
      (fetchDiaryForYear resp).2.1 = "max_pages_reached") ∧
    ((∀ p, 1 ≤ p → p ≤ 30 → goodPage resp p) →
      (fetchDiaryForYear resp).1 = collected resp 1 30) := by
  by_cases hall : ∀ p, 1 ≤ p → p ≤ 30 → goodPage resp p
  · rw [fetchDiaryForYear_allgood resp hall]
    by_cases hc : collected resp 1 30 = []
    · rw [if_pos hc]
      exact ⟨⟨fun _ => ⟨hall, hc⟩, fun _ => rfl⟩, fun _ hne => absurd hc hne, fun _ => rfl⟩
    · rw [if_neg hc]
      exact ⟨⟨fun h => absurd h max_ne_collected, fun h => absurd h.2 hc⟩,
        fun _ _ => rfl, fun _ => rfl⟩
  · have hP : ∃ n, ¬ goodPage resp (n + 1) := by
      push_neg at hall
      obtain ⟨p, hp1, hp30, hbadp⟩ := hall
      exact ⟨p - 1, by rwa [Nat.sub_add_cancel hp1]⟩
    have hex : ∃ p, 1 ≤ p ∧ p ≤ 30 ∧ ¬ goodPage resp p := by
      push_neg at hall
      obtain ⟨p, hp1, hp30, hbadp⟩ := hall
      exact ⟨p, hp1, hp30, hbadp⟩
    obtain ⟨p0, hp01, hp030, hbadp0⟩ := hex
    have hk1 : 1 ≤ Nat.find hP + 1 := by omega
    have hkfind : Nat.find hP ≤ p0 - 1 := Nat.find_min' hP (by rwa [Nat.sub_add_cancel hp01])
    have hk30 : Nat.find hP + 1 ≤ 30 := by omega
    have hbadk : ¬ goodPage resp (Nat.find hP + 1) := Nat.find_spec hP
    have hgoodk : ∀ p, 1 ≤ p → p < Nat.find hP + 1 → goodPage resp p := by
      intro p hp1 hplt
      have h2 : p - 1 < Nat.find hP := by omega
      have h3 := Nat.find_min hP h2
      rw [Nat.sub_add_cancel hp1] at h3
      exact not_not.mp h3
    rw [fetchDiaryForYear_firstbad resp (Nat.find hP + 1) hk1 hk30 hgoodk hbadk]
    exact ⟨⟨fun h => absurd h (badReason_ne_collected resp _), fun h => absurd h.1 hall⟩,
      fun h => absurd h hall, fun h => absurd h hall⟩

/-- Witness for C6: a diary whose pages all parse to one entry runs to the
30-page ceiling and reports `"max_pages_reached"`. -/
theorem c6_witness :
    (∀ p, 1 ≤ p → p ≤ 30 → goodPage
      (fun _ => ⟨200, true, ⟨[⟨some "2025-01-01", none, none, some "/u/film/a/", "A"⟩],
        [], []⟩⟩) p) ∧
    (fetchDiaryForYear
      (fun _ => ⟨200, true, ⟨[⟨some "2025-01-01", none, none, some "/u/film/a/", "A"⟩],
        [], []⟩⟩)).1 ≠ [] ∧
    (fetchDiaryForYear
      (fun _ => ⟨200, true, ⟨[⟨some "2025-01-01", none, none, some "/u/film/a/", "A"⟩],
        [], []⟩⟩)).2.1 = "max_pages_reached" :=
  have hg : ∀ p, 1 ≤ p → p ≤ 30 → goodPage
      (fun _ => ⟨200, true, ⟨[⟨some "2025-01-01", none, none, some "/u/film/a/", "A"⟩],
        [], []⟩⟩) p :=
    fun _ _ _ => ⟨show (200 : Nat) ≠ 404 by decide, rfl,
      show parseDiaryEntries
        ⟨[⟨some "2025-01-01", none, none, some "/u/film/a/", "A"⟩], [], []⟩ ≠ [] by decide⟩
  have hne : (fetchDiaryForYear
      (fun _ => ⟨200, true, ⟨[⟨some "2025-01-01", none, none, some "/u/film/a/", "A"⟩],
        [], []⟩⟩)).1 ≠ [] := by decide
  ⟨hg, hne, (c6_no_entries_collected_iff _).2.1 hg hne⟩

/-! ### C1: the longest streak of a fully consecutive date set

The deduplicated dates are sorted *lexicographically* and then walked with
*calendar* day arithmetic; the two agree on valid ISO dates.  The following
lemmas prove this: the civil-calendar day number is strictly monotone in the
`(year, month, day)` lexicographic order, and the string order of two valid
ISO strings coincides with that order. -/

theorem isLeapYear_iff (y : Nat) :
    isLeapYear y = true ↔ ((y % 4 = 0 ∧ ¬ y % 100 = 0) ∨ y % 400 = 0) := by
  simp [isLeapYear]

theorem yearDays_succ (yy : Nat) (h : 1 ≤ yy) :
    yearDays yy = yearDays (yy - 1) + 365 + (if isLeapYear yy = true then 1 else 0) := by
  unfold yearDays
  by_cases hl : isLeapYear yy = true
  · rw [if_pos hl]
    rw [isLeapYear_iff] at hl
    omega
  · rw [if_neg hl]
    rw [isLeapYear_iff] at hl
    omega

/-- The February-29 contribution of the March-based year ending in calendar
year `y`. -/
def leapDays (y : Nat) : Nat := if isLeapYear y = true then 1 else 0

theorem leapDays_add_400 (y : Nat) : leapDays (y + 400) = leapDays y := by
  unfold leapDays
  split_ifs with h1 h2
  · rfl
  · rw [isLeapYear_iff] at h1
    rw [isLeapYear_iff] at h2
    exfalso
    omega
  · next h2 =>
    rw [isLeapYear_iff] at h1 h2
    exfalso
    omega
  · rfl

theorem yearDays_succ' (yy : Nat) (h : 1 ≤ yy) :
    yearDays yy = yearDays (yy - 1) + 365 + leapDays yy := yearDays_succ yy h

theorem yearDays_add (a k : Nat) : yearDays a + 365 * k ≤ yearDays (a + k) := by
  induction k with
  | zero => simp
  | succ k ih =>
    have h2 : yearDays (a + k) + 365 ≤ yearDays (a + k + 1) := by
      rw [yearDays_succ (a + k + 1) (by omega)]
      simp only [Nat.add_sub_cancel]
      split_ifs <;> omega
    show yearDays a + 365 * (k + 1) ≤ yearDays (a + k + 1)
    omega

/-- The validity ranges `Date.parse` enforces. -/
def validDate (y m d : Nat) : Prop :=
  1 ≤ m ∧ m ≤ 12 ∧ 1 ≤ d ∧ d ≤ daysInMonth y m

theorem doy_bound (y m d : Nat) (hv : validDate y m d) :
    doyBase (marchIdx m) + d - 1 ≤ 364 + leapDays (shiftedYear y m + 1) := by
  obtain ⟨hm1, hm2, hd1, hd2⟩ := hv
  by_cases hm : m = 2
  · subst hm
    have hsy : shiftedYear y 2 + 1 = y + 400 := by unfold shiftedYear; simp
    rw [hsy, leapDays_add_400]
    unfold daysInMonth at hd2
    rw [if_pos rfl] at hd2
    unfold leapDays at *
    split_ifs at hd2 ⊢ <;> (unfold marchIdx doyBase; omega)
  · have hdim : d ≤ 31 := by
      unfold daysInMonth at hd2
      rw [if_neg hm] at hd2
      split_ifs at hd2 <;> omega
    unfold marchIdx doyBase
    omega

/-- Strict monotonicity of the day number in the lexicographic order of valid
`(year, month, day)` triples. -/
theorem dayNumber_lt_of_lex (y1 m1 d1 y2 m2 d2 : Nat)
    (hv1 : validDate y1 m1 d1) (hv2 : validDate y2 m2 d2)
    (hlex : y1 < y2 ∨ (y1 = y2 ∧ (m1 < m2 ∨ (m1 = m2 ∧ d1 < d2)))) :
    dayNumber y1 m1 d1 < dayNumber y2 m2 d2 := by
  obtain ⟨hm11, hm12, hd11, hd12⟩ := hv1
  obtain ⟨hm21, hm22, hd21, hd22⟩ := hv2
  by_cases hseq : shiftedYear y1 m1 = shiftedYear y2 m2
  · have hmp : marchIdx m1 < marchIdx m2 ∨ (marchIdx m1 = marchIdx m2 ∧ d1 < d2) := by
      unfold shiftedYear at hseq
      unfold marchIdx
      split_ifs at hseq <;> omega
    unfold dayNumber
    rw [hseq]
    have hdoy : doyBase (marchIdx m1) + d1 - 1 < doyBase (marchIdx m2) + d2 - 1 := by
      rcases hmp with hlt | ⟨heq, hdlt⟩
      · have hm1ne2 : ¬ m1 = 2 := by
          intro h
          subst h
          unfold marchIdx at hlt
          omega
        have hstep : doyBase (marchIdx m1) + daysInMonth y1 m1 ≤
            doyBase (marchIdx m1 + 1) := by
          interval_cases m1 <;>
            first
              | exact absurd rfl hm1ne2
              | simp [daysInMonth, marchIdx, doyBase]
        have hmono : doyBase (marchIdx m1 + 1) ≤ doyBase (marchIdx m2) := by
          unfold doyBase
          omega
        omega
      · rw [heq]
        omega
    omega
  · have hs : shiftedYear y1 m1 ≤ shiftedYear y2 m2 := by
      unfold shiftedYear
      split_ifs <;> omega
    have hslt : shiftedYear y1 m1 < shiftedYear y2 m2 := by omega
    have hbound := doy_bound y1 m1 d1 ⟨hm11, hm12, hd11, hd12⟩
    have hsucc := yearDays_succ' (shiftedYear y1 m1 + 1) (by omega)
    simp only [Nat.add_sub_cancel] at hsucc
    have hadd := yearDays_add (shiftedYear y1 m1 + 1)
      (shiftedYear y2 m2 - shiftedYear y1 m1 - 1)
    have hch : shiftedYear y1 m1 + 1 + (shiftedYear y2 m2 - shiftedYear y1 m1 - 1) =
        shiftedYear y2 m2 := by omega
    rw [hch] at hadd
    unfold dayNumber
    unfold leapDays at hbound hsucc
    split_ifs at hbound hsucc <;> omega

theorem char_lt_iff (a b : Char) : a < b ↔ a.toNat < b.toNat := Iff.rfl

theorem char_eq_iff (a b : Char) : a = b ↔ a.toNat = b.toNat :=
  ⟨fun h => by rw [h], fun h => Char.eq_of_val_eq (UInt32.toNat.inj h)⟩

theorem isDigitChar_bounds (c : Char) (h : isDigitChar c = true) :
    48 ≤ c.toNat ∧ c.toNat ≤ 57 := by
  simpa [isDigitChar] using h

theorem parseISO_shape (s : String) (y m d : Nat) (h : parseISO s = some (y, m, d)) :
    ∃ c1 c2 c3 c4 c6 c7 c9 c10,
      s.data = [c1, c2, c3, c4, '-', c6, c7, '-', c9, c10] ∧
      (isDigitChar c1 = true ∧ isDigitChar c2 = true ∧ isDigitChar c3 = true ∧
       isDigitChar c4 = true ∧ isDigitChar c6 = true ∧ isDigitChar c7 = true ∧
       isDigitChar c9 = true ∧ isDigitChar c10 = true) ∧
      y = ((digitVal c1 * 10 + digitVal c2) * 10 + digitVal c3) * 10 + digitVal c4 ∧
      m = digitVal c6 * 10 + digitVal c7 ∧
      d = digitVal c9 * 10 + digitVal c10 ∧
      validDate y m d := by
  unfold parseISO at h
  split at h
  next a1 a2 a3 a4 a5 a6 a7 a8 a9 a10 heq =>
    split_ifs at h with hc
    obtain ⟨hd1, hd2, hdg1, hdg2, hdg3, hdg4, hdg5, hdg6, hdg7, hdg8⟩ := hc
    subst hd1
    subst hd2
    dsimp only at h
    split_ifs at h with hr
    injection h with h'
    injection h' with hy h'
    injection h' with hm hd
    subst hy
    subst hm
    subst hd
    exact ⟨a1, a2, a3, a4, a6, a7, a9, a10, heq,
      ⟨hdg1, hdg2, hdg3, hdg4, hdg5, hdg6, hdg7, hdg8⟩, rfl, rfl, rfl, hr⟩
  next => exact absurd h (by simp)

theorem charsLe_nil (bs : List Char) : charsLe [] bs = true := rfl

theorem charsLe_cons_iff (a b : Char) (as bs : List Char) :
    charsLe (a :: as) (b :: bs) = true ↔ (a < b ∨ (a = b ∧ charsLe as bs = true)) := by
  simp only [charsLe]
  split_ifs with h1 h2
  · simp [h1]
  · simp only [Bool.false_eq_true, false_iff]
    rintro (h | ⟨rfl, _⟩)
    · exact h1 h
    · exact lt_irrefl _ h2
  · have heq : a = b := le_antisymm (not_lt.mp h2) (not_lt.mp h1)
    subst heq
    simp [lt_irrefl]

/-- String comparison of two valid ISO dates implies the lexicographic
comparison of their numeric `(year, month, day)` triples. -/
theorem tripleLexLe_of_strLe (a b : String) (ya ma da yb mb db : Nat)
    (hpa : parseISO a = some (ya, ma, da)) (hpb : parseISO b = some (yb, mb, db))
    (hle : strLe a b = true) :
    ya < yb ∨ (ya = yb ∧ (ma < mb ∨ (ma = mb ∧ (da < db ∨ da = db)))) := by
  obtain ⟨c1, c2, c3, c4, c6, c7, c9, c10, hda, hdig, hy, hm, hd, -⟩ :=
    parseISO_shape a ya ma da hpa
  obtain ⟨e1, e2, e3, e4, e6, e7, e9, e10, hdb, hdig', hy', hm', hd', -⟩ :=
    parseISO_shape b yb mb db hpb
  obtain ⟨hg1, hg2, hg3, hg4, hg5, hg6, hg7, hg8⟩ := hdig
  obtain ⟨hh1, hh2, hh3, hh4, hh5, hh6, hh7, hh8⟩ := hdig'
  have hb1 := isDigitChar_bounds _ hg1
  have hb2 := isDigitChar_bounds _ hg2
  have hb3 := isDigitChar_bounds _ hg3
  have hb4 := isDigitChar_bounds _ hg4
  have hb5 := isDigitChar_bounds _ hg5
  have hb6 := isDigitChar_bounds _ hg6
  have hb7 := isDigitChar_bounds _ hg7
  have hb8 := isDigitChar_bounds _ hg8
  have hc1 := isDigitChar_bounds _ hh1
  have hc2 := isDigitChar_bounds _ hh2
  have hc3 := isDigitChar_bounds _ hh3
  have hc4 := isDigitChar_bounds _ hh4
  have hc5 := isDigitChar_bounds _ hh5
  have hc6 := isDigitChar_bounds _ hh6
  have hc7 := isDigitChar_bounds _ hh7
  have hc8 := isDigitChar_bounds _ hh8
  unfold strLe at hle
  rw [hda, hdb] at hle
  simp only [charsLe_cons_iff, charsLe_nil, lt_self_iff_false, false_or, true_and,
    eq_self_iff_true, and_true, char_lt_iff, char_eq_iff] at hle
  subst hy
  subst hm
  subst hd
  subst hy'
  subst hm'
  subst hd'
  unfold digitVal
  omega

theorem dateVal_some (a : String) (v : Nat) (h : dateVal a = some v) :
    ∃ y m d, parseISO a = some (y, m, d) ∧ v = dayNumber y m d := by
  unfold dateVal at h
  cases hp : parseISO a with
  | none => rw [hp] at h; exact absurd h (by simp)
  | some t =>
    obtain ⟨y, m, d⟩ := t
    rw [hp] at h
    simp only [Option.map_some', Option.some.injEq] at h
    exact ⟨y, m, d, rfl, h.symm⟩

/-- On valid ISO dates, the string order agrees with chronology. -/
theorem dateVal_le_of_strLe (a b : String) (va vb : Nat)
    (ha : dateVal a = some va) (hb : dateVal b = some vb) (hle : strLe a b = true) :
    va ≤ vb := by
  obtain ⟨y1, m1, d1, hp1, hv1⟩ := dateVal_some a va ha
  obtain ⟨y2, m2, d2, hp2, hv2⟩ := dateVal_some b vb hb
  obtain ⟨-, -, -, -, -, -, -, -, -, -, -, -, -, hval1⟩ :=
    parseISO_shape a y1 m1 d1 hp1
  obtain ⟨-, -, -, -, -, -, -, -, -, -, -, -, -, hval2⟩ :=
    parseISO_shape b y2 m2 d2 hp2
  subst hv1
  subst hv2
  rcases tripleLexLe_of_strLe a b y1 m1 d1 y2 m2 d2 hp1 hp2 hle with
    h | ⟨rfl, h | ⟨rfl, h | rfl⟩⟩
  · exact Nat.le_of_lt (dayNumber_lt_of_lex _ _ _ _ _ _ hval1 hval2 (Or.inl h))
  · exact Nat.le_of_lt
      (dayNumber_lt_of_lex _ _ _ _ _ _ hval1 hval2 (Or.inr ⟨rfl, Or.inl h⟩))
  · exact Nat.le_of_lt
      (dayNumber_lt_of_lex _ _ _ _ _ _ hval1 hval2 (Or.inr ⟨rfl, Or.inr ⟨rfl, h⟩⟩))
  · exact Nat.le_refl _

theorem strLeRel_of_dateVal_lt (a b : String) (va vb : Nat)
    (ha : dateVal a = some va) (hb : dateVal b = some vb) (hlt : va < vb) :
    strLeRel a b := by
  rcases charsLe_total a.data b.data with h | h
  · exact h
  · have hba := dateVal_le_of_strLe b a vb va hb ha h
    omega

/-- Claim C1: if the set of distinct dates of a non-empty entry list is
exactly the `n` consecutive calendar days `s 0, s 1, …, s (n-1)` (valid ISO
strings with day numbers `t0, t0+1, …`), then `computeLongestStreak` returns
length `n` with start `s 0` and end `s (n-1)`. -/
theorem c1_consecutive_days_full_streak (entries : List DiaryEntry) (n : Nat)
    (s : Nat → String) (t0 : Nat) (hn : 1 ≤ n)
    (hval : ∀ i, i < n → dateVal (s i) = some (t0 + i))
    (hset : (firstDedup (entries.map (fun e => e.date))).toFinset =
      (Finset.range n).image s) :
    computeLongestStreak entries = ⟨n, some (s 0), some (s (n - 1))⟩ := by
  have hmem : ∀ x, x ∈ firstDedup (entries.map (fun e => e.date)) ↔
      ∃ i, i < n ∧ s i = x := by
    intro x
    rw [← List.mem_toFinset, hset]
    simp [Finset.mem_image, Finset.mem_range]
  have hinj : ∀ i j, i < n → j < n → s i = s j → i = j := by
    intro i j hi hj hij
    have h1 := hval i hi
    have h2 := hval j hj
    rw [hij] at h1
    rw [h1] at h2
    injection h2 with h3
    omega
  have hnodupT : ((List.range n).map s).Nodup :=
    (List.nodup_range n).map_on
      (fun i hi j hj hij => hinj i j (List.mem_range.1 hi) (List.mem_range.1 hj) hij)
  have hperm : List.Perm (firstDedup (entries.map (fun e => e.date)))
      ((List.range n).map s) :=
    (List.perm_ext_iff_of_nodup (nodup_firstDedup _) hnodupT).2 (fun x => by
      rw [hmem]
      simp only [List.mem_map, List.mem_range])
  have hgetT : ∀ (i : Nat) (h : i < ((List.range n).map s).length),
      ((List.range n).map s).get ⟨i, h⟩ = s i := by
    intro i h
    rw [List.get_map]
    congr 1
    exact List.get_range i _
  have hlenT : ((List.range n).map s).length = n := by
    rw [List.length_map, List.length_range]
  have hsortedT : List.Sorted strLeRel ((List.range n).map s) := by
    rw [List.Sorted, List.pairwise_iff_get]
    intro i j hij
    rw [hgetT i.1 i.2, hgetT j.1 j.2]
    have hi : i.1 < n := by omega
    have hj : j.1 < n := by omega
    exact strLeRel_of_dateVal_lt _ _ _ _ (hval i.1 hi) (hval j.1 hj) (by omega)
  have hsds : sortedDays entries = (List.range n).map s := by
    rw [sortedDays_eq]
    exact List.eq_of_perm_of_sorted ((List.perm_insertionSort _ _).trans hperm)
      (List.sorted_insertionSort _ _) hsortedT
  have hchainT : Chain1 ((List.range n).map s) := by
    rw [Chain1, List.chain'_iff_get]
    intro i hi
    rw [hgetT i _, hgetT (i + 1) _]
    have hi1 : i < n := by omega
    have hi2 : i + 1 < n := by omega
    exact (isNextDay_iff _ _).2 ⟨t0 + i, t0 + (i + 1), hval i hi1, hval (i + 1) hi2, by omega⟩
  have hTne : (List.range n).map s ≠ [] := by
    intro h
    have := congrArg List.length h
    rw [hlenT] at this
    simp at this
    omega
  have hrun := foldl_streakStep_run ((List.range n).map s) hTne hchainT initState
    (Nat.le_refl 0) (Or.inl rfl)
  have hcond : initState.bestLen < ((List.range n).map s).length := by
    rw [hlenT]
    exact hn
  simp only [if_pos hcond] at hrun
  have hhead : ((List.range n).map s).headI = s 0 := by
    obtain ⟨k, rfl⟩ : ∃ k, n = k + 1 := ⟨n - 1, by omega⟩
    rw [List.range_succ_eq_map]
    rfl
  have hlast : ((List.range n).map s).getLastI = s (n - 1) := by
    obtain ⟨k, rfl⟩ : ∃ k, n = k + 1 := ⟨n - 1, by omega⟩
    rw [List.range_succ, List.map_append]
    simp only [List.map_cons, List.map_nil]
    rw [getLastI_append_singleton]
    simp
  have heq : computeLongestStreak entries =
      ⟨(((List.range n).map s).foldl streakStep initState).bestLen,
       (((List.range n).map s).foldl streakStep initState).bestStart,
       (((List.range n).map s).foldl streakStep initState).bestEnd⟩ := by
    unfold computeLongestStreak
    rw [hsds]
  rw [heq, hrun]
  dsimp only
  rw [hhead, hlast, hlenT]

/-- Witness for C1: the claim's concrete instance
`["2025-01-01", "2025-01-02", "2025-01-03"]`. -/
theorem c1_witness :
    computeLongestStreak [⟨"2025-01-01", none, "u"⟩, ⟨"2025-01-02", none, "u"⟩,
      ⟨"2025-01-03", none, "u"⟩] = ⟨3, some "2025-01-01", some "2025-01-03"⟩ :=
  c1_consecutive_days_full_streak
    [⟨"2025-01-01", none, "u"⟩, ⟨"2025-01-02", none, "u"⟩, ⟨"2025-01-03", none, "u"⟩]
    3 (fun i => ["2025-01-01", "2025-01-02", "2025-01-03"].getD i "") (dayNumber 2025 1 1)
    (by omega) (by decide) (by decide)
